import Mathlib

/-
Verification development for the libDAI BipartiteGraph core
(src/include/dai/bipgraph.h).  The C++ class stores, for each node of
either type, a list of Neighbor records {iter, node, dual}; edges are
represented by reciprocal record pairs.  We shallowly embed the class
state and every operation the claims mention, and prove or refute the
specified properties.
-/

set_option maxRecDepth 8192

namespace dai

/-- Neighbor record of a BipartiteGraph (bipgraph.h lines 113-128):
`iter` is the record's own position in its owner's neighbor list, `node`
the absolute id of the neighboring node of the opposite type, `dual` the
position of the reciprocal record inside `node`'s neighbor list. -/
structure Neighbor where
  iter : Nat
  node : Nat
  dual : Nat
  deriving DecidableEq, Repr

instance : Inhabited Neighbor := ⟨⟨0, 0, 0⟩⟩

/-- State of a BipartiteGraph (bipgraph.h lines 136-158): the private
fields `_nb1`, `_nb2` (adjacency lists), and the obsolete edge-index
layer `_edge_indexed`, `_edges`, `_vv2e` (the hash map is embedded as an
association list). -/
structure BG where
  nb1 : List (List Neighbor)
  nb2 : List (List Neighbor)
  edge_indexed : Bool
  edges : List (Nat × Nat)
  vv2e : List ((Nat × Nat) × Nat)
  deriving DecidableEq, Repr

/-- Default constructor (bipgraph.h line 162): empty graph, edge index disabled. -/
def bgEmpty : BG := ⟨[], [], false, [], []⟩

/-- Number of nodes of type 1 (`nr1`, line 251). -/
def nr1 (g : BG) : Nat := g.nb1.length

/-- Number of nodes of type 2 (`nr2`, line 253). -/
def nr2 (g : BG) : Nat := g.nb2.length

/-- Neighbor list of type-1 node `a` (`nb1(i1)`, line 221); out-of-range
access is undefined behavior in C++, embedded with the empty default. -/
def nbl1 (g : BG) (a : Nat) : List Neighbor := g.nb1.getD a []

/-- Neighbor list of type-2 node `b` (`nb2(i2)`, line 236). -/
def nbl2 (g : BG) (b : Nat) : List Neighbor := g.nb2.getD b []

/-- Record at position `p` of type-1 node `a`'s list (`nb1(i1,_i2)`, line 187). -/
def nbr1 (g : BG) (a p : Nat) : Neighbor := (nbl1 g a).getD p default

/-- Record at position `p` of type-2 node `b`'s list (`nb2(i2,_i1)`, line 204). -/
def nbr2 (g : BG) (b p : Nat) : Neighbor := (nbl2 g b).getD p default

/-- Degree of a type-1 node: its neighbor-list length. -/
def degree1 (g : BG) (a : Nat) : Nat := (nbl1 g a).length

/-- Degree of a type-2 node: its neighbor-list length. -/
def degree2 (g : BG) (b : Nat) : Nat := (nbl2 g b).length

/-- Edge count (`nrEdges`, lines 256-261): the source loops `i1` from 0
to `nr1()` and accumulates `nb1(i1).size()`. -/
def nrEdges (g : BG) : Nat :=
  (List.range (nr1 g)).foldl (fun sum i1 => sum + (nbl1 g i1).length) 0

/-- Adds a node of type 1 without neighbors (`add1`, line 264). -/
def add1 (g : BG) : BG := { g with nb1 := g.nb1 ++ [[]] }

/-- Adds a node of type 2 without neighbors (`add2`, line 267). -/
def add2 (g : BG) : BG := { g with nb2 := g.nb2 ++ [[]] }

/-- Return value of `add1`/`add2`: both are declared `void` in the source
(lines 264, 267), so no identifier is returned to the caller; embedded as
the absent optional value. -/
def add1Return (_g : BG) : Option Nat := none

/-- Return value of `add2`, which is likewise declared `void`. -/
def add2Return (_g : BG) : Option Nat := none

/-- Loop body state of the range variant of `add1` (lines 276-288): walks
the requested type-2 ids, appending a record to the new node's list and a
reciprocal record to each target's list; `old1` is `nr1()` of the
receiver, which the C++ reads while `_nb1` is still unchanged. -/
def add1rGo (old1 : Nat) : List Nat → Nat → List (List Neighbor) →
    (List Neighbor × List (List Neighbor))
  | [], _, nb2cur => ([], nb2cur)
  | it :: rest, iter, nb2cur =>
      let d := (nb2cur.getD it []).length
      let nb2next := nb2cur.set it (nb2cur.getD it [] ++ [⟨d, old1, iter⟩])
      let res := add1rGo old1 rest (iter + 1) nb2next
      (⟨iter, it, d⟩ :: res.1, res.2)

/-- Adds a type-1 node with a given range of type-2 neighbors
(`add1(begin,end,sizeHint)`, lines 276-288). -/
def add1r (g : BG) (ns : List Nat) : BG :=
  let res := add1rGo g.nb1.length ns 0 g.nb2
  { g with nb1 := g.nb1 ++ [res.1], nb2 := res.2 }

/-- Loop body of the range variant of `add2` (lines 297-309), the mirror
image of `add1rGo`. -/
def add2rGo (old2 : Nat) : List Nat → Nat → List (List Neighbor) →
    (List Neighbor × List (List Neighbor))
  | [], _, nb1cur => ([], nb1cur)
  | it :: rest, iter, nb1cur =>
      let d := (nb1cur.getD it []).length
      let nb1next := nb1cur.set it (nb1cur.getD it [] ++ [⟨d, old2, iter⟩])
      let res := add2rGo old2 rest (iter + 1) nb1next
      (⟨iter, it, d⟩ :: res.1, res.2)

/-- Adds a type-2 node with a given range of type-1 neighbors
(`add2(begin,end,sizeHint)`, lines 297-309). -/
def add2r (g : BG) (ns : List Nat) : BG :=
  let res := add2rGo g.nb2.length ns 0 g.nb1
  { g with nb1 := res.2, nb2 := g.nb2 ++ [res.1] }

/-- Whether the edge (n1,n2) is present, as `addEdge`'s duplicate scan
tests it (lines 342-346): some record of `nb1(n1)` has `node == n2`. -/
def edgeB (g : BG) (n1 n2 : Nat) : Bool :=
  (nbl1 g n1).any (fun r => r.node == n2)

/-- Adds an edge (`addEdge`, lines 336-354): when `check` is set, first
scans `nb1(n1)` and does nothing if the edge exists; otherwise appends
`Neighbor(_nb1[n1].size(), n2, _nb2[n2].size())` to `_nb1[n1]` and the
reciprocal `Neighbor(dual, n1, iter)` to `_nb2[n2]`. -/
def addEdge (g : BG) (n1 n2 : Nat) (check : Bool) : BG :=
  if check && edgeB g n1 n2 then g
  else
    let r1 : Neighbor := ⟨(nbl1 g n1).length, n2, (nbl2 g n2).length⟩
    let r2 : Neighbor := ⟨r1.dual, n1, r1.iter⟩
    { g with nb1 := g.nb1.set n1 (nbl1 g n1 ++ [r1]),
             nb2 := g.nb2.set n2 (nbl2 g n2 ++ [r2]) }

/-- Removes the first record whose `node` field equals `n`, exactly as the
erase loops of `eraseEdge` (lines 321-330) do: iterate, erase the first
match, `break`. -/
def eraseFirstRec (n : Nat) : List Neighbor → List Neighbor
  | [] => []
  | r :: rs => if r.node == n then rs else r :: eraseFirstRec n rs

/-- Removes edge (n1,n2) (`eraseEdge`, lines 318-331): erases the first
record with `node == n2` from `_nb1[n1]` and the first record with
`node == n1` from `_nb2[n2]`; no other field is touched. -/
def eraseEdge (g : BG) (n1 n2 : Nat) : BG :=
  { g with nb1 := g.nb1.set n1 (eraseFirstRec n2 (nbl1 g n1)),
           nb2 := g.nb2.set n2 (eraseFirstRec n1 (nbl2 g n2)) }

/-- Fresh state with `m` and `k` empty-neighbor nodes, as `construct`
(lines 431-445) resizes `_nb1`/`_nb2` after clearing, inside the
edge-range constructor (line 172) which initializes the legacy fields. -/
def bgNew (m k : Nat) : BG :=
  ⟨List.replicate m [], List.replicate k [], false, [], []⟩

/-- Bulk construction from an edge range (constructor line 172 plus
`construct`, lines 431-445): inserts every edge via `addEdge`, checked
when `DAI_DEBUG` is defined and unchecked otherwise; the flag `daiDebug`
selects the build configuration. -/
def construct (daiDebug : Bool) (m k : Nat) (es : List (Nat × Nat)) : BG :=
  es.foldl (fun g e => addEdge g e.1 e.2 daiDebug) (bgNew m k)

/-- Renumbers the `iter` fields of a list so each record's `iter` becomes
its position, counting from `k`; used by the modelled node removal to
repair positions after records are deleted from a list. -/
def reIterFrom (k : Nat) : List Neighbor → List Neighbor
  | [] => []
  | r :: rs => ⟨k, r.node, r.dual⟩ :: reIterFrom (k + 1) rs

/-- Modelled from the spec: `erase1` is declared at bipgraph.h line 312
but defined in bipgraph.cpp, which is not part of src.  Spec section 4.1,
`removeNode`: remove every incident edge with full repair, delete the
node's slot, and decrement the `node` field of every opposite-type record
whose target index exceeds the removed id.  Concretely for a type-1 node
`n1`: its own list is dropped; every type-2 list loses its records
pointing at `n1`, has larger `node` fields decremented, and its `iter`
fields renumbered; surviving type-1 records have their `dual` recomputed
to the new position of their reciprocal record. -/
def erase1 (g : BG) (n1 : Nat) : BG :=
  { g with
    nb1 := (g.nb1.eraseIdx n1).map (fun l => l.map (fun r =>
      ⟨r.iter, r.node, ((nbl2 g r.node).take r.dual).countP (fun s => !(s.node == n1))⟩)),
    nb2 := g.nb2.map (fun l => reIterFrom 0 ((l.filter (fun r => !(r.node == n1))).map
      (fun r => if n1 < r.node then ⟨r.iter, r.node - 1, r.dual⟩ else r))) }

/-- Modelled from the spec: `erase2` is declared at bipgraph.h line 315
but defined in bipgraph.cpp, which is not part of src; mirror image of
`erase1` for a type-2 node. -/
def erase2 (g : BG) (n2 : Nat) : BG :=
  { g with
    nb2 := (g.nb2.eraseIdx n2).map (fun l => l.map (fun r =>
      ⟨r.iter, r.node, ((nbl1 g r.node).take r.dual).countP (fun s => !(s.node == n2))⟩)),
    nb1 := g.nb1.map (fun l => reIterFrom 0 ((l.filter (fun r => !(r.node == n2))).map
      (fun r => if n2 < r.node then ⟨r.iter, r.node - 1, r.dual⟩ else r))) }

/-- Lexicographic comparison of edges, as `std::sort` over
`std::pair<size_t,size_t>` orders them. -/
def edgeLe (e f : Nat × Nat) : Bool :=
  Nat.blt e.1 f.1 || (e.1 == f.1 && Nat.ble e.2 f.2)

/-- Insertion step of the sort used by the embedded `indexEdges`. -/
def insertEdge (e : Nat × Nat) : List (Nat × Nat) → List (Nat × Nat)
  | [] => [e]
  | f :: fs => if edgeLe e f then e :: f :: fs else f :: insertEdge e fs

/-- Sorts an edge list lexicographically. -/
def sortEdges : List (Nat × Nat) → List (Nat × Nat)
  | [] => []
  | e :: es => insertEdge e (sortEdges es)

/-- Edge pairs in the order the `indexEdges` loop (lines 385-391) visits
them: for each type-1 node in order, one pair per neighbor record. -/
def edgeListOf (g : BG) : List (Nat × Nat) :=
  ((List.range (nr1 g)).map (fun a => (nbl1 g a).map (fun r => (a, r.node)))).flatten

/-- Legacy `indexEdges` (lines 380-400): rebuilds `_edges` sorted, maps
each edge to its ordinal in `_vv2e`, and sets `_edge_indexed`. -/
def indexEdges (g : BG) : BG :=
  let es := sortEdges (edgeListOf g)
  { g with edge_indexed := true, edges := es,
           vv2e := es.enum.map (fun p => (p.2, p.1)) }

/-- Build configuration: `daiDebug` is whether `DAI_DEBUG` was defined
(enabling the `#ifdef DAI_DEBUG` blocks), `assertActive` whether the
`<cassert>` assertions are compiled in (that is, `NDEBUG` not defined). -/
structure Cfg where
  daiDebug : Bool
  assertActive : Bool
  deriving DecidableEq, Repr

/-- Failure outcomes of the embedded C++ semantics: `assertFail` models a
firing assert aborting the program, `undefinedBehavior` an unchecked
out-of-range access that C++ leaves undefined. -/
inductive CErr where
  | assertFail : CErr
  | undefinedBehavior : CErr
  deriving DecidableEq, Repr

/-- Embeds a C++ `assert(c)`: aborts when assertions are active and the
condition fails; with `NDEBUG` the whole expression disappears. -/
def assertE (cfg : Cfg) (c : Bool) : Except CErr Unit :=
  if cfg.assertActive && !c then Except.error CErr.assertFail else Except.ok ()

/-- Build-configured semantics of the accessor `nb1(i1,_i2)` (lines
186-193): bound asserts only inside `#ifdef DAI_DEBUG`, then the raw
double indexing, undefined when out of range. -/
def nb1E (cfg : Cfg) (g : BG) (i1 p : Nat) : Except CErr Neighbor := do
  if cfg.daiDebug then
    assertE cfg (decide (i1 < nr1 g))
    assertE cfg (decide (p < degree1 g i1))
  if decide (i1 < nr1 g) && decide (p < degree1 g i1) then
    Except.ok (nbr1 g i1 p)
  else Except.error CErr.undefinedBehavior

/-- Build-configured semantics of the accessor `nb2(i2,_i1)` (lines
204-210). -/
def nb2E (cfg : Cfg) (g : BG) (i2 p : Nat) : Except CErr Neighbor := do
  if cfg.daiDebug then
    assertE cfg (decide (i2 < nr2 g))
    assertE cfg (decide (p < degree2 g i2))
  if decide (i2 < nr2 g) && decide (p < degree2 g i2) then
    Except.ok (nbr2 g i2 p)
  else Except.error CErr.undefinedBehavior

/-- Build-configured semantics of `addEdge` (lines 336-354): two plain
asserts guard the bounds; past them the body dereferences `_nb1[n1]` and
`_nb2[n2]`, undefined behavior when out of range. -/
def addEdgeE (cfg : Cfg) (g : BG) (n1 n2 : Nat) (check : Bool) : Except CErr BG := do
  assertE cfg (decide (n1 < nr1 g))
  assertE cfg (decide (n2 < nr2 g))
  if decide (n1 < nr1 g) && decide (n2 < nr2 g) then
    Except.ok (addEdge g n1 n2 check)
  else Except.error CErr.undefinedBehavior

/-- Build-configured semantics of `eraseEdge` (lines 318-331), guarded by
the same two plain asserts. -/
def eraseEdgeE (cfg : Cfg) (g : BG) (n1 n2 : Nat) : Except CErr BG := do
  assertE cfg (decide (n1 < nr1 g))
  assertE cfg (decide (n2 < nr2 g))
  if decide (n1 < nr1 g) && decide (n2 < nr2 g) then
    Except.ok (eraseEdge g n1 n2)
  else Except.error CErr.undefinedBehavior

/-- Build-configured bulk construction (constructor line 172 plus
`construct`, lines 431-445): each edge goes through `addEdge`, checked
exactly when `DAI_DEBUG` is defined. -/
def constructE (cfg : Cfg) (m k : Nat) (es : List (Nat × Nat)) : Except CErr BG :=
  es.foldlM (fun g e => addEdgeE cfg g e.1 e.2 cfg.daiDebug) (bgNew m k)

/-- Legacy `edge(e)` (lines 402-405): asserts `_edge_indexed`, then reads
`_edges[e]` unchecked. -/
def edgeE (cfg : Cfg) (g : BG) (e : Nat) : Except CErr (Nat × Nat) := do
  assertE cfg g.edge_indexed
  if decide (e < g.edges.length) then Except.ok (g.edges.getD e (0, 0))
  else Except.error CErr.undefinedBehavior

/-- Legacy `VV2E(n1,n2)` (lines 411-417): asserts `_edge_indexed`, looks
the edge up in `_vv2e`, and asserts the lookup hit before dereferencing
the iterator. -/
def VV2E_E (cfg : Cfg) (g : BG) (n1 n2 : Nat) : Except CErr Nat := do
  assertE cfg g.edge_indexed
  match g.vv2e.find? (fun p => p.1 == (n1, n2)) with
  | some p => Except.ok p.2
  | none => do
      assertE cfg false
      Except.error CErr.undefinedBehavior

/-- Legacy `nr_edges()` (lines 419-422): asserts `_edge_indexed`, then
returns `_edges.size()`. -/
def nr_edgesE (cfg : Cfg) (g : BG) : Except CErr Nat := do
  assertE cfg g.edge_indexed
  Except.ok g.edges.length

/-- Dual cross-reference invariant, exactly as the class documents it for
its records (bipgraph.h lines 91-96 and the spec's data model): at every
position `p` of every node's neighbor list, the record `r` there has
`r.iter = p`, its `node` and `dual` indices are valid, and the record at
position `r.dual` of `r.node`'s opposite-type list points back with
`node` equal to the owner and `dual` equal to `p`. -/
def Inv (g : BG) : Prop :=
  (∀ a, a < nr1 g → ∀ p, p < degree1 g a →
    (nbr1 g a p).iter = p ∧
    (nbr1 g a p).node < nr2 g ∧
    (nbr1 g a p).dual < degree2 g (nbr1 g a p).node ∧
    (nbr2 g (nbr1 g a p).node (nbr1 g a p).dual).node = a ∧
    (nbr2 g (nbr1 g a p).node (nbr1 g a p).dual).dual = p) ∧
  (∀ b, b < nr2 g → ∀ p, p < degree2 g b →
    (nbr2 g b p).iter = p ∧
    (nbr2 g b p).node < nr1 g ∧
    (nbr2 g b p).dual < degree1 g (nbr2 g b p).node ∧
    (nbr1 g (nbr2 g b p).node (nbr2 g b p).dual).node = b ∧
    (nbr1 g (nbr2 g b p).node (nbr2 g b p).dual).dual = p)

instance instDecidableInv (g : BG) : Decidable (Inv g) := by
  unfold Inv
  infer_instance

/-- Graph states reachable from the empty or bulk-constructed graph by
the public mutators, each invoked within its asserted bounds. -/
inductive Reachable : BG → Prop where
  | empty : Reachable bgEmpty
  | constructed (dbg : Bool) (m k : Nat) (es : List (Nat × Nat))
      (h : ∀ e ∈ es, e.1 < m ∧ e.2 < k) : Reachable (construct dbg m k es)
  | add1 (g : BG) : Reachable g → Reachable (dai.add1 g)
  | add2 (g : BG) : Reachable g → Reachable (dai.add2 g)
  | add1r (g : BG) (ns : List Nat) (h : ∀ v ∈ ns, v < nr2 g) :
      Reachable g → Reachable (dai.add1r g ns)
  | add2r (g : BG) (ns : List Nat) (h : ∀ v ∈ ns, v < nr1 g) :
      Reachable g → Reachable (dai.add2r g ns)
  | addEdge (g : BG) (n1 n2 : Nat) (check : Bool) (h1 : n1 < nr1 g)
      (h2 : n2 < nr2 g) : Reachable g → Reachable (dai.addEdge g n1 n2 check)
  | eraseEdge (g : BG) (n1 n2 : Nat) (h1 : n1 < nr1 g) (h2 : n2 < nr2 g) :
      Reachable g → Reachable (dai.eraseEdge g n1 n2)
  | erase1 (g : BG) (n1 : Nat) (h : n1 < nr1 g) :
      Reachable g → Reachable (dai.erase1 g n1)
  | erase2 (g : BG) (n2 : Nat) (h : n2 < nr2 g) :
      Reachable g → Reachable (dai.erase2 g n2)

/-- Iterates a function `n` times; a plain fuel loop. -/
def iterN {α : Type} (f : α → α) : Nat → α → α
  | 0, x => x
  | n + 1, x => iterN f n (f x)

/-- Modelled from the spec: one frontier-expansion step of the BFS behind
`isConnected`, which is declared at bipgraph.h line 369 but defined in
bipgraph.cpp, not part of src.  A node is marked once any neighbor of the
opposite type is marked. -/
def connStep (g : BG) (s : List Bool × List Bool) : List Bool × List Bool :=
  ((List.range (nr1 g)).map (fun a =>
      s.1.getD a false || (nbl1 g a).any (fun r => s.2.getD r.node false)),
   (List.range (nr2 g)).map (fun b =>
      s.2.getD b false || (nbl2 g b).any (fun r => s.1.getD r.node false)))

/-- Modelled from the spec: `isConnected` is declared at bipgraph.h line
369 but defined in bipgraph.cpp, not part of src.  Spec section 4.1: one
BFS over the bipartite adjacency treating both node types as one
traversal graph; true iff every node is reachable from an arbitrary start
node, a graph with zero nodes being trivially connected.  The start node
is type-1 node 0 when one exists, otherwise type-2 node 0. -/
def isConnected (g : BG) : Bool :=
  if nr1 g == 0 && nr2 g == 0 then true
  else
    let init : List Bool × List Bool :=
      if 0 < nr1 g then
        ((List.range (nr1 g)).map (fun a => a == 0),
         (List.range (nr2 g)).map (fun _ => false))
      else
        ((List.range (nr1 g)).map (fun _ => false),
         (List.range (nr2 g)).map (fun b => b == 0))
    let fin := iterN (connStep g) (nr1 g + nr2 g) init
    fin.1.all (fun x => x) && fin.2.all (fun x => x)

/-- Modelled from the spec: `isTree` is declared at bipgraph.h line 372
but defined in bipgraph.cpp, not part of src.  Spec section 4.1 gives two
formulations required to agree and leaves the choice to the implementer;
we take the stated equivalent characterization: connected and
`edgeCount() == nr1 + nr2 - 1`. -/
def isTree (g : BG) : Bool :=
  isConnected g && (nrEdges g == nr1 g + nr2 g - 1)

/-- Reference graph of the spec and of example_bipgraph.cpp: three type-1
nodes, two type-2 nodes, edges (0,0),(1,0),(2,0),(1,1),(2,1), built the
way a release-configuration bulk construction inserts them. -/
def gRef : BG := construct false 3 2 [(0, 0), (1, 0), (2, 0), (1, 1), (2, 1)]

/-- Base graph for the eraseEdge counterexamples: one type-1 node holding
two neighbor records. -/
def gBugBase : BG := construct false 1 2 [(0, 0), (0, 1)]

/-- State after `eraseEdge(0,0)` on `gBugBase`: the surviving record of
node 0's type-1 list shifted from position 1 to position 0, and the
source erase loops repaired nothing. -/
def gBug : BG := eraseEdge gBugBase 0 0

/-- A state reached from the reference graph by one operation of every
remaining kind: append a node of each type, add an edge, erase an edge,
remove a node. -/
def gWit : BG := erase1 (eraseEdge (addEdge (add2 (add1 gRef)) 3 2 true) 1 0) 0

/-- Exchanges the two node types; the data structure is mirror-symmetric
in them, and every type-2 fact follows from its type-1 twin through this
map. -/
def swap (g : BG) : BG := ⟨g.nb2, g.nb1, g.edge_indexed, g.edges, g.vv2e⟩

/-- Counting invariant behind edge-count symmetry: matching records of
the two sides pair up — for in-range nodes `a`, `b`, node `a`'s list
holds as many records naming `b` as `b`'s list holds naming `a` — and
every stored node id is in range. -/
def GoodCounts (g : BG) : Prop :=
  (∀ a b : Nat, a < nr1 g → b < nr2 g →
    (nbl1 g a).countP (fun r => r.node == b) =
      (nbl2 g b).countP (fun r => r.node == a)) ∧
  (∀ l ∈ g.nb1, ∀ r ∈ l, r.node < nr2 g) ∧
  (∀ l ∈ g.nb2, ∀ r ∈ l, r.node < nr1 g)

/-- Position of the first record whose `node` field equals `n`, if any;
the observational counterpart of the erase loop's scan. -/
def findNodeIdx (n : Nat) : List Neighbor → Option Nat
  | [] => none
  | r :: rs => if r.node == n then some 0 else (findNodeIdx n rs).map (fun k => k + 1)

/-- Decidable equality of embedded results, so that concrete outcomes of
the configured semantics can be evaluated inside proofs. -/
instance instDecEqExcept {e a : Type} [DecidableEq e] [DecidableEq a] :
    DecidableEq (Except e a)
  | Except.error x, Except.error y =>
      if h : x = y then Decidable.isTrue (by rw [h])
      else Decidable.isFalse (fun c => h (Except.error.inj c))
  | Except.error _, Except.ok _ => Decidable.isFalse (fun c => Except.noConfusion c)
  | Except.ok _, Except.error _ => Decidable.isFalse (fun c => Except.noConfusion c)
  | Except.ok x, Except.ok y =>
      if h : x = y then Decidable.isTrue (by rw [h])
      else Decidable.isFalse (fun c => h (Except.ok.inj c))

/-- Total length of the inner lists; `nrEdges` computes this on `_nb1`. -/
def sumLen (ls : List (List Neighbor)) : Nat := (ls.map List.length).sum

/-- Reads of a cons cell at position zero. -/
theorem getD_cons_zero {α : Type} (a : α) (l : List α) (d : α) : (a :: l).getD 0 d = a := rfl

/-- Reads of a cons cell at a successor position. -/
theorem getD_cons_succ {α : Type} (a : α) (l : List α) (i : Nat) (d : α) :
    (a :: l).getD (i + 1) d = l.getD i d := rfl

/-- Reads of the empty list always give the default. -/
theorem getD_nil {α : Type} (i : Nat) (d : α) : ([] : List α).getD i d = d := rfl

/-- Out-of-range reads give the default. -/
theorem getD_of_le {α : Type} : ∀ (l : List α) (i : Nat), l.length ≤ i → ∀ d : α, l.getD i d = d
  | [], i, _, d => getD_nil i d
  | _ :: _, 0, h, _ => absurd h (by simp)
  | _ :: l, i + 1, h, d => by
      rw [getD_cons_succ]
      exact getD_of_le l i (Nat.le_of_succ_le_succ h) d

/-- Appending one element does not change in-range reads. -/
theorem getD_append_lt {α : Type} :
    ∀ (l : List α) (x : α) (i : Nat), i < l.length → ∀ d : α, (l ++ [x]).getD i d = l.getD i d
  | [], _, i, h, _ => absurd h (by simp)
  | a :: l, x, 0, _, d => rfl
  | a :: l, x, i + 1, h, d => by
      simp only [List.cons_append, getD_cons_succ]
      exact getD_append_lt l x i (Nat.lt_of_succ_lt_succ h) d

/-- Reading an appended element at the old length position. -/
theorem getD_append_len {α : Type} :
    ∀ (l : List α) (x : α) (d : α), (l ++ [x]).getD l.length d = x
  | [], _, _ => rfl
  | a :: l, x, d => by
      simp only [List.cons_append, List.length_cons, getD_cons_succ]
      exact getD_append_len l x d

/-- Reading back a just-written position. -/
theorem getD_set_self {α : Type} :
    ∀ (l : List α) (i : Nat) (x : α), i < l.length → ∀ d : α, (l.set i x).getD i d = x
  | [], i, _, h, _ => absurd h (by simp)
  | a :: l, 0, x, _, d => rfl
  | a :: l, i + 1, x, h, d => by
      simp only [List.set_cons_succ, getD_cons_succ]
      exact getD_set_self l i x (Nat.lt_of_succ_lt_succ h) d

/-- Reading a position other than the written one. -/
theorem getD_set_ne {α : Type} :
    ∀ (l : List α) (i j : Nat) (x : α), i ≠ j → ∀ d : α, (l.set i x).getD j d = l.getD j d
  | [], _, _, _, _, _ => by simp
  | a :: l, 0, 0, x, h, d => absurd rfl h
  | a :: l, 0, j + 1, x, _, d => rfl
  | a :: l, i + 1, 0, x, _, d => rfl
  | a :: l, i + 1, j + 1, x, h, d => by
      simp only [List.set_cons_succ, getD_cons_succ]
      exact getD_set_ne l i j x (fun e => h (congrArg Nat.succ e)) d

/-- Writing a position with the value already there changes nothing. -/
theorem set_getD_self {α : Type} :
    ∀ (l : List α) (i : Nat) (d : α), l.set i (l.getD i d) = l
  | [], _, _ => rfl
  | a :: l, 0, d => rfl
  | a :: l, i + 1, d => by
      simp only [List.set_cons_succ, getD_cons_succ]
      rw [set_getD_self l i d]

/-- C1: the claim asserts the dual cross-reference invariant in every
state reachable by the public mutators.  The code refutes it: the
reachable state `gBug` (bulk construction with nr1 = 1, nr2 = 2 and edges
(0,0),(0,1), then `eraseEdge(0,0)`) violates the invariant, because the
erase loops of `eraseEdge` never repair the `iter` and `dual` fields of
the records that shift — contradicting the invariant the class itself
documents at bipgraph.h lines 91-96. -/
theorem c1_eraseEdge_reaches_invariant_violation : Reachable gBug ∧ ¬ Inv gBug := by
  constructor
  · exact Reachable.eraseEdge gBugBase 0 0 (by decide) (by decide)
      (Reachable.constructed false 1 2 [(0, 0), (0, 1)] (by decide))
  · decide

/-- C2: the claim asserts that after `eraseEdge(n1,n2)` every shifted
record has its `iter` decremented and its reciprocal's `dual`
decremented, so that the invariant still holds.  Refuted on the spec's
own scenario: erasing edge (1,0) from the reference graph drops the
degrees as stated, but the surviving record of type-1 node 1 keeps
`iter = 1` at position 0, the record shifted inside type-2 node 0's list
keeps `iter = 2` at position 1, type-1 node 2's record keeps its stale
`dual = 2`, and the invariant fails. -/
theorem c2_eraseEdge_keeps_stale_fields :
    degree1 (eraseEdge gRef 1 0) 1 = 1 ∧ degree2 (eraseEdge gRef 1 0) 0 = 2 ∧
    (nbr1 (eraseEdge gRef 1 0) 1 0).iter = 1 ∧
    (nbr2 (eraseEdge gRef 1 0) 0 1).iter = 2 ∧
    (nbr1 (eraseEdge gRef 1 0) 2 0).dual = 2 ∧
    ¬ Inv (eraseEdge gRef 1 0) := by decide

/-- C4: `isTree` equals `isConnected` together with the edge-count
condition, and on the reference graph the connectivity test succeeds
while the tree test fails, its 5 edges differing from 3 + 2 - 1 = 4. -/
theorem c4_isTree_characterization :
    (∀ g : BG, isTree g = (isConnected g && (nrEdges g == nr1 g + nr2 g - 1))) ∧
    isConnected gRef = true ∧ isTree gRef = false :=
  ⟨fun _ => rfl, by decide, by decide⟩

/-- C8 counterexample: the claim says appending a node returns the new
node's id, equal to the old count; the source functions are declared
`void` and return nothing, so already on the empty graph the returned
value is not the old count. -/
theorem c8_add1_returns_nothing : ¬ (add1Return bgEmpty = some (nr1 bgEmpty)) := by decide

/-- C8 amended: `add1`/`add2` append one empty-neighbor node, so the
count of that type grows by one and the new node's id — its index, the
old count — holds an empty list; the functions are `void`, returning no
value. -/
theorem c8_append_node :
    ∀ g : BG, nr1 (add1 g) = nr1 g + 1 ∧ (add1 g).nb1.getD (nr1 g) [] = [] ∧
      nr2 (add2 g) = nr2 g + 1 ∧ (add2 g).nb2.getD (nr2 g) [] = [] ∧
      add1Return g = none ∧ add2Return g = none := by
  intro g
  refine ⟨?_, ?_, ?_, ?_, rfl, rfl⟩
  · simp [add1, nr1]
  · simp [add1, nr1, getD_append_len]
  · simp [add2, nr2]
  · simp [add2, nr2, getD_append_len]

/-- Characterization of the erase loop: it removes exactly the first
record whose `node` matches, or leaves the list unchanged when no record
does. -/
theorem eraseFirstRec_spec (n : Nat) (l : List Neighbor) :
    eraseFirstRec n l =
      match findNodeIdx n l with
      | none => l
      | some p => l.eraseIdx p := by
  induction l with
  | nil => rfl
  | cons r rs ih =>
      by_cases h : r.node = n
      · simp [eraseFirstRec, findNodeIdx, h]
      · have hb : (r.node == n) = false := by simp [h]
        simp only [eraseFirstRec, findNodeIdx, hb, Bool.false_eq_true, if_false, ih]
        cases hf : findNodeIdx n rs <;> simp

/-- C10: eraseEdge within bounds is frame-local: the node counts are
unchanged, every neighbor list other than those of `n1` and `n2` is
untouched, and in each of the two affected lists at most the first record
whose `node` field matches is removed. -/
theorem c10_eraseEdge_frame (g : BG) (n1 n2 : Nat) (h1 : n1 < nr1 g) (h2 : n2 < nr2 g) :
    nr1 (eraseEdge g n1 n2) = nr1 g ∧ nr2 (eraseEdge g n1 n2) = nr2 g ∧
    (∀ m : Nat, m ≠ n1 → nbl1 (eraseEdge g n1 n2) m = nbl1 g m) ∧
    (∀ m : Nat, m ≠ n2 → nbl2 (eraseEdge g n1 n2) m = nbl2 g m) ∧
    nbl1 (eraseEdge g n1 n2) n1 =
      (match findNodeIdx n2 (nbl1 g n1) with
       | none => nbl1 g n1
       | some p => (nbl1 g n1).eraseIdx p) ∧
    nbl2 (eraseEdge g n1 n2) n2 =
      (match findNodeIdx n1 (nbl2 g n2) with
       | none => nbl2 g n2
       | some p => (nbl2 g n2).eraseIdx p) := by
  refine ⟨by simp [eraseEdge, nr1], by simp [eraseEdge, nr2], ?_, ?_, ?_, ?_⟩
  · intro m hm
    exact getD_set_ne _ _ _ _ (fun e => hm e.symm) _
  · intro m hm
    exact getD_set_ne _ _ _ _ (fun e => hm e.symm) _
  · rw [show nbl1 (eraseEdge g n1 n2) n1 =
        (g.nb1.set n1 (eraseFirstRec n2 (nbl1 g n1))).getD n1 [] from rfl,
      getD_set_self _ _ _ h1]
    exact eraseFirstRec_spec n2 (nbl1 g n1)
  · rw [show nbl2 (eraseEdge g n1 n2) n2 =
        (g.nb2.set n2 (eraseFirstRec n1 (nbl2 g n2))).getD n2 [] from rfl,
      getD_set_self _ _ _ h2]
    exact eraseFirstRec_spec n1 (nbl2 g n2)

/-- C10 witness: the frame property evaluated on the reference graph at
the present edge (1,0). -/
theorem c10_eraseEdge_frame_witness :
    nr1 (eraseEdge gRef 1 0) = nr1 gRef ∧ nr2 (eraseEdge gRef 1 0) = nr2 gRef ∧
    (∀ m : Nat, m ≠ 1 → nbl1 (eraseEdge gRef 1 0) m = nbl1 gRef m) ∧
    (∀ m : Nat, m ≠ 0 → nbl2 (eraseEdge gRef 1 0) m = nbl2 gRef m) ∧
    nbl1 (eraseEdge gRef 1 0) 1 =
      (match findNodeIdx 0 (nbl1 gRef 1) with
       | none => nbl1 gRef 1
       | some p => (nbl1 gRef 1).eraseIdx p) ∧
    nbl2 (eraseEdge gRef 1 0) 0 =
      (match findNodeIdx 1 (nbl2 gRef 0) with
       | none => nbl2 gRef 0
       | some p => (nbl2 gRef 0).eraseIdx p) :=
  c10_eraseEdge_frame gRef 1 0 (by decide) (by decide)

/-- C7: with assertions active, every legacy edge query called before the
index is built aborts at its `assert(_edge_indexed)` instead of returning
a value. -/
theorem c7_legacy_queries_require_index (cfg : Cfg) (g : BG) (e n1 n2 : Nat)
    (ha : cfg.assertActive = true) (hi : g.edge_indexed = false) :
    edgeE cfg g e = Except.error CErr.assertFail ∧
    VV2E_E cfg g n1 n2 = Except.error CErr.assertFail ∧
    nr_edgesE cfg g = Except.error CErr.assertFail := by
  refine ⟨?_, ?_, ?_⟩ <;>
    simp [edgeE, VV2E_E, nr_edgesE, assertE, ha, hi, Bind.bind, Except.bind]

/-- C7 witness: the three legacy queries on the freshly constructed
reference graph, whose index was never built, in an assert-enabled
configuration. -/
theorem c7_legacy_queries_require_index_witness :
    edgeE ⟨true, true⟩ gRef 0 = Except.error CErr.assertFail ∧
    VV2E_E ⟨true, true⟩ gRef 1 0 = Except.error CErr.assertFail ∧
    nr_edgesE ⟨true, true⟩ gRef = Except.error CErr.assertFail :=
  c7_legacy_queries_require_index ⟨true, true⟩ gRef 0 1 0 (by decide) (by decide)

/-- C6 counterexample: the claim demands the bound checks be enabled in
every build configuration so that an out-of-range id always fails
deterministically; in the NDEBUG configuration the asserts are compiled
out, and the out-of-range `addEdge(5,0)` on the reference graph reaches
the unchecked vector access instead of an assert failure. -/
theorem c6_checks_are_elidable :
    ¬ (∀ cfg : Cfg, addEdgeE cfg gRef 5 0 true = Except.error CErr.assertFail) :=
  fun h => absurd (h ⟨false, false⟩) (by decide)

/-- An assert whose condition holds does nothing. -/
theorem assertE_true (cfg : Cfg) (c : Bool) (h : c = true) : assertE cfg c = Except.ok () := by
  simp [assertE, h]

/-- An assert whose condition fails aborts when assertions are active. -/
theorem assertE_fail (cfg : Cfg) (c : Bool) (ha : cfg.assertActive = true) (h : c = false) :
    assertE cfg c = Except.error CErr.assertFail := by
  simp [assertE, h, ha]

/-- With assertions active, an out-of-range addEdge call aborts at one of
its two bound asserts. -/
theorem addEdgeE_fail (cfg : Cfg) (g : BG) (n1 n2 : Nat) (check : Bool)
    (ha : cfg.assertActive = true) (hout : nr1 g ≤ n1 ∨ nr2 g ≤ n2) :
    addEdgeE cfg g n1 n2 check = Except.error CErr.assertFail := by
  by_cases hn1 : n1 < nr1 g
  · have hn2 : nr2 g ≤ n2 := by
      rcases hout with h | h
      · exact absurd hn1 (Nat.not_lt.mpr h)
      · exact h
    unfold addEdgeE
    rw [assertE_true cfg _ (decide_eq_true hn1),
        assertE_fail cfg _ ha (decide_eq_false (Nat.not_lt.mpr hn2))]
    rfl
  · unfold addEdgeE
    rw [assertE_fail cfg _ ha (decide_eq_false hn1)]
    rfl

/-- Within bounds, the configured addEdge succeeds and yields the pure
update, in every configuration. -/
theorem addEdgeE_ok (cfg : Cfg) (g : BG) (n1 n2 : Nat) (check : Bool)
    (h1 : n1 < nr1 g) (h2 : n2 < nr2 g) :
    addEdgeE cfg g n1 n2 check = Except.ok (addEdge g n1 n2 check) := by
  unfold addEdgeE
  rw [assertE_true cfg _ (decide_eq_true h1), assertE_true cfg _ (decide_eq_true h2)]
  simp only [decide_eq_true h1, decide_eq_true h2, Bool.and_self, if_true]
  rfl

/-- addEdge never changes the number of type-1 nodes. -/
theorem nr1_addEdge (g : BG) (n1 n2 : Nat) (check : Bool) :
    nr1 (addEdge g n1 n2 check) = nr1 g := by
  unfold addEdge
  by_cases h : (check && edgeB g n1 n2) = true <;> simp [h, nr1]

/-- addEdge never changes the number of type-2 nodes. -/
theorem nr2_addEdge (g : BG) (n1 n2 : Nat) (check : Bool) :
    nr2 (addEdge g n1 n2 check) = nr2 g := by
  unfold addEdge
  by_cases h : (check && edgeB g n1 n2) = true <;> simp [h, nr2]

/-- With assertions active, the construction fold aborts as soon as it
meets an edge out of range for the (fold-invariant) node counts. -/
theorem foldlM_addEdgeE_fail (cfg : Cfg) (ha : cfg.assertActive = true) :
    ∀ (es : List (Nat × Nat)) (g : BG), (∃ e ∈ es, nr1 g ≤ e.1 ∨ nr2 g ≤ e.2) →
      es.foldlM (fun h e => addEdgeE cfg h e.1 e.2 cfg.daiDebug) g =
        Except.error CErr.assertFail := by
  intro es
  induction es with
  | nil =>
      intro g hex
      rcases hex with ⟨e, he, _⟩
      exact absurd he (List.not_mem_nil e)
  | cons e es ih =>
      intro g hex
      rw [List.foldlM_cons]
      by_cases hhead : nr1 g ≤ e.1 ∨ nr2 g ≤ e.2
      · rw [addEdgeE_fail cfg g e.1 e.2 cfg.daiDebug ha hhead]
        rfl
      · have h1 : e.1 < nr1 g := by
          rcases Nat.lt_or_ge e.1 (nr1 g) with h | h
          · exact h
          · exact absurd (Or.inl h) hhead
        have h2 : e.2 < nr2 g := by
          rcases Nat.lt_or_ge e.2 (nr2 g) with h | h
          · exact h
          · exact absurd (Or.inr h) hhead
        rw [addEdgeE_ok cfg g e.1 e.2 cfg.daiDebug h1 h2]
        have hex2 : ∃ f ∈ es, nr1 (addEdge g e.1 e.2 cfg.daiDebug) ≤ f.1 ∨
            nr2 (addEdge g e.1 e.2 cfg.daiDebug) ≤ f.2 := by
          rcases hex with ⟨f, hf, hout⟩
          rcases List.mem_cons.mp hf with rfl | hf2
          · rcases hout with h | h
            · exact absurd (Or.inl h) hhead
            · exact absurd (Or.inr h) hhead
          · exact ⟨f, hf2, by rw [nr1_addEdge, nr2_addEdge]; exact hout⟩
        exact ih (addEdge g e.1 e.2 cfg.daiDebug) hex2

/-- C6 amended: the bound checks exist but are assertion-based and build
dependent.  With assertions active, out-of-range ids make `addEdge`,
`eraseEdge` and bulk construction abort at a plain assert, and the
`nb1`/`nb2` accessors abort when `DAI_DEBUG` is additionally defined;
with `NDEBUG` (assertions compiled out) every check is elided and the
out-of-range call reaches the unchecked vector access, which C++ leaves
undefined, instead of failing deterministically. -/
theorem c6_bound_checks_are_assertions :
    (∀ (cfg : Cfg) (g : BG) (n1 n2 : Nat) (check : Bool), cfg.assertActive = true →
      nr1 g ≤ n1 ∨ nr2 g ≤ n2 → addEdgeE cfg g n1 n2 check = Except.error CErr.assertFail) ∧
    (∀ (cfg : Cfg) (g : BG) (n1 n2 : Nat), cfg.assertActive = true →
      nr1 g ≤ n1 ∨ nr2 g ≤ n2 → eraseEdgeE cfg g n1 n2 = Except.error CErr.assertFail) ∧
    (∀ (cfg : Cfg) (g : BG) (i p : Nat), cfg.assertActive = true → cfg.daiDebug = true →
      nr1 g ≤ i → nb1E cfg g i p = Except.error CErr.assertFail) ∧
    (∀ (cfg : Cfg) (g : BG) (i p : Nat), cfg.assertActive = true → cfg.daiDebug = true →
      nr2 g ≤ i → nb2E cfg g i p = Except.error CErr.assertFail) ∧
    (∀ (cfg : Cfg) (m k : Nat) (es : List (Nat × Nat)), cfg.assertActive = true →
      (∃ e ∈ es, m ≤ e.1 ∨ k ≤ e.2) → constructE cfg m k es = Except.error CErr.assertFail) ∧
    (∀ (g : BG) (i p : Nat), nr1 g ≤ i →
      nb1E ⟨false, false⟩ g i p = Except.error CErr.undefinedBehavior) ∧
    (∀ (g : BG) (n1 n2 : Nat) (check : Bool), nr1 g ≤ n1 ∨ nr2 g ≤ n2 →
      addEdgeE ⟨false, false⟩ g n1 n2 check = Except.error CErr.undefinedBehavior) := by
  refine ⟨addEdgeE_fail, ?_, ?_, ?_, ?_, ?_, ?_⟩
  · intro cfg g n1 n2 ha hout
    by_cases hn1 : n1 < nr1 g
    · have hn2 : nr2 g ≤ n2 := by
        rcases hout with h | h
        · exact absurd hn1 (Nat.not_lt.mpr h)
        · exact h
      unfold eraseEdgeE
      rw [assertE_true cfg _ (decide_eq_true hn1),
          assertE_fail cfg _ ha (decide_eq_false (Nat.not_lt.mpr hn2))]
      rfl
    · unfold eraseEdgeE
      rw [assertE_fail cfg _ ha (decide_eq_false hn1)]
      rfl
  · intro cfg g i p ha hd hi
    unfold nb1E
    rw [hd]
    rw [if_pos rfl, assertE_fail cfg _ ha (decide_eq_false (Nat.not_lt.mpr hi))]
    rfl
  · intro cfg g i p ha hd hi
    unfold nb2E
    rw [hd]
    rw [if_pos rfl, assertE_fail cfg _ ha (decide_eq_false (Nat.not_lt.mpr hi))]
    rfl
  · intro cfg m k es ha hex
    unfold constructE
    apply foldlM_addEdgeE_fail cfg ha es (bgNew m k)
    rcases hex with ⟨e, he, hout⟩
    refine ⟨e, he, ?_⟩
    simpa [bgNew, nr1, nr2] using hout
  · intro g i p hi
    unfold nb1E
    rw [show (⟨false, false⟩ : Cfg).daiDebug = false from rfl]
    rw [if_neg (by simp), if_neg ?_]
    · rfl
    · simp [decide_eq_false (Nat.not_lt.mpr hi)]
  · intro g n1 n2 check hout
    unfold addEdgeE
    rw [show assertE ⟨false, false⟩ (decide (n1 < nr1 g)) = Except.ok () from by
          simp [assertE],
        show assertE ⟨false, false⟩ (decide (n2 < nr2 g)) = Except.ok () from by
          simp [assertE]]
    rw [if_neg ?_]
    · rfl
    · rcases hout with h | h <;>
        simp [decide_eq_false (Nat.not_lt.mpr h)]

/-- C6 amended witness: each branch of the amended statement evaluated at
a concrete out-of-range call. -/
theorem c6_bound_checks_are_assertions_witness :
    addEdgeE ⟨false, true⟩ gRef 5 0 true = Except.error CErr.assertFail ∧
    eraseEdgeE ⟨false, true⟩ gRef 5 0 = Except.error CErr.assertFail ∧
    nb1E ⟨true, true⟩ gRef 7 0 = Except.error CErr.assertFail ∧
    nb2E ⟨true, true⟩ gRef 7 0 = Except.error CErr.assertFail ∧
    constructE ⟨false, true⟩ 1 2 [(0, 0), (3, 1)] = Except.error CErr.assertFail ∧
    nb1E ⟨false, false⟩ gRef 7 0 = Except.error CErr.undefinedBehavior ∧
    addEdgeE ⟨false, false⟩ gRef 5 0 true = Except.error CErr.undefinedBehavior :=
  ⟨c6_bound_checks_are_assertions.1 ⟨false, true⟩ gRef 5 0 true rfl (Or.inl (by decide)),
   c6_bound_checks_are_assertions.2.1 ⟨false, true⟩ gRef 5 0 rfl (Or.inl (by decide)),
   c6_bound_checks_are_assertions.2.2.1 ⟨true, true⟩ gRef 7 0 rfl rfl (by decide),
   c6_bound_checks_are_assertions.2.2.2.1 ⟨true, true⟩ gRef 7 0 rfl rfl (by decide),
   c6_bound_checks_are_assertions.2.2.2.2.1 ⟨false, true⟩ 1 2 [(0, 0), (3, 1)] rfl
     ⟨(3, 1), by decide, Or.inl (by decide)⟩,
   c6_bound_checks_are_assertions.2.2.2.2.2.1 gRef 7 0 (by decide),
   c6_bound_checks_are_assertions.2.2.2.2.2.2 gRef 5 0 true (Or.inl (by decide))⟩

/-- An in-range read is a member of the list. -/
theorem getD_mem {α : Type} : ∀ (l : List α) (p : Nat), p < l.length → ∀ d : α, l.getD p d ∈ l
  | [], _, h, _ => absurd h (by simp)
  | a :: l, 0, _, _ => List.mem_cons_self a l
  | a :: l, p + 1, h, d => List.mem_cons_of_mem a (getD_mem l p (Nat.lt_of_succ_lt_succ h) d)

/-- A member sits at some in-range position. -/
theorem exists_getD_of_mem {α : Type} :
    ∀ (l : List α) (a : α), a ∈ l → ∀ d : α, ∃ p, p < l.length ∧ l.getD p d = a
  | [], a, h, _ => absurd h (List.not_mem_nil a)
  | b :: l, a, h, d => by
      rcases List.mem_cons.mp h with rfl | h2
      · exact ⟨0, Nat.succ_pos _, rfl⟩
      · obtain ⟨p, hp, he⟩ := exists_getD_of_mem l a h2 d
        exact ⟨p + 1, Nat.succ_lt_succ hp, he⟩

/-- A record with the sought `node` at an in-range position makes the
presence scan succeed. -/
theorem any_node_of_getD (l : List Neighbor) (p : Nat) (h : p < l.length) (n : Nat)
    (he : (l.getD p default).node = n) : l.any (fun r => r.node == n) = true :=
  List.any_eq_true.mpr ⟨l.getD p default, getD_mem l p h default, by rw [he]; simp⟩

/-- Erasing the first match from a list whose only match is a final
appended record removes exactly that record. -/
theorem eraseFirstRec_append (n : Nat) (x : Neighbor) (hx : x.node = n) :
    ∀ l : List Neighbor, (∀ r ∈ l, (r.node == n) = false) → eraseFirstRec n (l ++ [x]) = l
  | [], _ => by simp [eraseFirstRec, hx]
  | r :: rs, h => by
      have hr := h r (List.mem_cons_self r rs)
      simp only [List.cons_append, eraseFirstRec, hr, Bool.false_eq_true, if_false]
      exact congrArg (fun t => r :: t)
        (eraseFirstRec_append n x hx rs (fun s hs => h s (List.mem_cons_of_mem r hs)))

/-- Field-wise extensionality for graph states. -/
theorem bgExt (x y : BG) (h1 : x.nb1 = y.nb1) (h2 : x.nb2 = y.nb2)
    (h3 : x.edge_indexed = y.edge_indexed) (h4 : x.edges = y.edges)
    (h5 : x.vv2e = y.vv2e) : x = y := by
  cases x
  cases y
  simp_all

/-- addEdge leaves the legacy index fields alone. -/
theorem addEdge_legacy (g : BG) (n1 n2 : Nat) (check : Bool) :
    (addEdge g n1 n2 check).edge_indexed = g.edge_indexed ∧
    (addEdge g n1 n2 check).edges = g.edges ∧
    (addEdge g n1 n2 check).vv2e = g.vv2e := by
  unfold addEdge
  by_cases h : (check && edgeB g n1 n2) = true <;> simp [h]

/-- C3: on a graph satisfying the dual invariant, adding an absent edge
and erasing it again restores the exact previous state — the added
records are the last of their lists, so the erase removes them without
shifting anything — and with it the two degrees and the invariant. -/
theorem c3_addEdge_eraseEdge_roundtrip (g : BG) (n1 n2 : Nat) (hInv : Inv g)
    (h1 : n1 < nr1 g) (h2 : n2 < nr2 g) (hnp : edgeB g n1 n2 = false) :
    eraseEdge (addEdge g n1 n2 true) n1 n2 = g ∧
    degree1 (eraseEdge (addEdge g n1 n2 true) n1 n2) n1 = degree1 g n1 ∧
    degree2 (eraseEdge (addEdge g n1 n2 true) n1 n2) n2 = degree2 g n2 ∧
    Inv (eraseEdge (addEdge g n1 n2 true) n1 n2) := by
  have hall1 : ∀ r ∈ nbl1 g n1, (r.node == n2) = false := by
    intro r hr
    cases hb : (r.node == n2) with
    | false => rfl
    | true =>
        have he : edgeB g n1 n2 = true := List.any_eq_true.mpr ⟨r, hr, hb⟩
        rw [he] at hnp
        exact Bool.noConfusion hnp
  have hall2 : ∀ r ∈ nbl2 g n2, (r.node == n1) = false := by
    intro r hr
    cases hb : (r.node == n1) with
    | false => rfl
    | true =>
        have hrn : r.node = n1 := by simpa using hb
        obtain ⟨q, hq, hget⟩ := exists_getD_of_mem (nbl2 g n2) r hr default
        have hcl := hInv.2 n2 h2 q hq
        have hr2 : nbr2 g n2 q = r := hget
        rw [hr2, hrn] at hcl
        have he : edgeB g n1 n2 = true :=
          any_node_of_getD (nbl1 g n1) r.dual hcl.2.2.1 n2 hcl.2.2.2.1
        rw [he] at hnp
        exact Bool.noConfusion hnp
  have hA : (addEdge g n1 n2 true).nb1 =
      g.nb1.set n1 (nbl1 g n1 ++ [⟨(nbl1 g n1).length, n2, (nbl2 g n2).length⟩]) := by
    simp [addEdge, hnp]
  have hB : (addEdge g n1 n2 true).nb2 =
      g.nb2.set n2 (nbl2 g n2 ++ [⟨(nbl2 g n2).length, n1, (nbl1 g n1).length⟩]) := by
    simp [addEdge, hnp]
  have hl1 : nbl1 (addEdge g n1 n2 true) n1 =
      nbl1 g n1 ++ [⟨(nbl1 g n1).length, n2, (nbl2 g n2).length⟩] := by
    rw [show nbl1 (addEdge g n1 n2 true) n1 = (addEdge g n1 n2 true).nb1.getD n1 [] from rfl,
      hA]
    exact getD_set_self _ _ _ h1 _
  have hl2 : nbl2 (addEdge g n1 n2 true) n2 =
      nbl2 g n2 ++ [⟨(nbl2 g n2).length, n1, (nbl1 g n1).length⟩] := by
    rw [show nbl2 (addEdge g n1 n2 true) n2 = (addEdge g n1 n2 true).nb2.getD n2 [] from rfl,
      hB]
    exact getD_set_self _ _ _ h2 _
  have hnb1 : (eraseEdge (addEdge g n1 n2 true) n1 n2).nb1 = g.nb1 := by
    show (addEdge g n1 n2 true).nb1.set n1
        (eraseFirstRec n2 (nbl1 (addEdge g n1 n2 true) n1)) = g.nb1
    rw [hl1, eraseFirstRec_append n2 _ rfl (nbl1 g n1) hall1, hA, List.set_set]
    exact set_getD_self g.nb1 n1 []
  have hnb2 : (eraseEdge (addEdge g n1 n2 true) n1 n2).nb2 = g.nb2 := by
    show (addEdge g n1 n2 true).nb2.set n2
        (eraseFirstRec n1 (nbl2 (addEdge g n1 n2 true) n2)) = g.nb2
    rw [hl2, eraseFirstRec_append n1 _ rfl (nbl2 g n2) hall2, hB, List.set_set]
    exact set_getD_self g.nb2 n2 []
  have hmain : eraseEdge (addEdge g n1 n2 true) n1 n2 = g :=
    bgExt _ _ hnb1 hnb2 (addEdge_legacy g n1 n2 true).1
      (addEdge_legacy g n1 n2 true).2.1 (addEdge_legacy g n1 n2 true).2.2
  exact ⟨hmain, by rw [hmain], by rw [hmain], by rw [hmain]; exact hInv⟩

/-- C3 witness: the round trip on the reference graph at the absent edge
(0,1), whose dual invariant holds by evaluation. -/
theorem c3_addEdge_eraseEdge_roundtrip_witness :
    eraseEdge (addEdge gRef 0 1 true) 0 1 = gRef ∧
    degree1 (eraseEdge (addEdge gRef 0 1 true) 0 1) 0 = degree1 gRef 0 ∧
    degree2 (eraseEdge (addEdge gRef 0 1 true) 0 1) 1 = degree2 gRef 1 ∧
    Inv (eraseEdge (addEdge gRef 0 1 true) 0 1) :=
  c3_addEdge_eraseEdge_roundtrip gRef 0 1 (by decide) (by decide) (by decide) (by decide)

/-- The type-1 vector after an addEdge that actually inserts. -/
theorem addEdge_go_nb1 (g : BG) (n1 n2 : Nat) (check : Bool)
    (hc2 : (check && edgeB g n1 n2) = false) :
    (addEdge g n1 n2 check).nb1 =
      g.nb1.set n1 (nbl1 g n1 ++ [⟨(nbl1 g n1).length, n2, (nbl2 g n2).length⟩]) := by
  simp [addEdge, hc2]

/-- The type-2 vector after an addEdge that actually inserts. -/
theorem addEdge_go_nb2 (g : BG) (n1 n2 : Nat) (check : Bool)
    (hc2 : (check && edgeB g n1 n2) = false) :
    (addEdge g n1 n2 check).nb2 =
      g.nb2.set n2 (nbl2 g n2 ++ [⟨(nbl2 g n2).length, n1, (nbl1 g n1).length⟩]) := by
  simp [addEdge, hc2]

/-- The inserting addEdge appends one record to `n1`'s list. -/
theorem addEdge_nbl1_self (g : BG) (n1 n2 : Nat) (check : Bool)
    (hc2 : (check && edgeB g n1 n2) = false) (h1 : n1 < nr1 g) :
    nbl1 (addEdge g n1 n2 check) n1 =
      nbl1 g n1 ++ [⟨(nbl1 g n1).length, n2, (nbl2 g n2).length⟩] := by
  show (addEdge g n1 n2 check).nb1.getD n1 [] = _
  rw [addEdge_go_nb1 g n1 n2 check hc2]
  exact getD_set_self _ _ _ h1 _

/-- The inserting addEdge appends one reciprocal record to `n2`'s list. -/
theorem addEdge_nbl2_self (g : BG) (n1 n2 : Nat) (check : Bool)
    (hc2 : (check && edgeB g n1 n2) = false) (h2 : n2 < nr2 g) :
    nbl2 (addEdge g n1 n2 check) n2 =
      nbl2 g n2 ++ [⟨(nbl2 g n2).length, n1, (nbl1 g n1).length⟩] := by
  show (addEdge g n1 n2 check).nb2.getD n2 [] = _
  rw [addEdge_go_nb2 g n1 n2 check hc2]
  exact getD_set_self _ _ _ h2 _

/-- addEdge leaves every other type-1 list untouched. -/
theorem addEdge_nbl1_other (g : BG) (n1 n2 : Nat) (check : Bool)
    (hc2 : (check && edgeB g n1 n2) = false) (a : Nat) (ha : n1 ≠ a) :
    nbl1 (addEdge g n1 n2 check) a = nbl1 g a := by
  show (addEdge g n1 n2 check).nb1.getD a [] = _
  rw [addEdge_go_nb1 g n1 n2 check hc2]
  exact getD_set_ne _ _ _ _ ha _

/-- addEdge leaves every other type-2 list untouched. -/
theorem addEdge_nbl2_other (g : BG) (n1 n2 : Nat) (check : Bool)
    (hc2 : (check && edgeB g n1 n2) = false) (b : Nat) (hb : n2 ≠ b) :
    nbl2 (addEdge g n1 n2 check) b = nbl2 g b := by
  show (addEdge g n1 n2 check).nb2.getD b [] = _
  rw [addEdge_go_nb2 g n1 n2 check hc2]
  exact getD_set_ne _ _ _ _ hb _

/-- A type-1 record untouched by an inserting addEdge keeps satisfying
its dual cross-reference clauses in the new graph. -/
theorem addEdge_side1_preserved (g : BG) (n1 n2 : Nat) (check : Bool)
    (hc2 : (check && edgeB g n1 n2) = false) (h2 : n2 < nr2 g)
    (a p : Nat) (ha : a < nr1 g) (hp : p < degree1 g a)
    (hrec : nbr1 (addEdge g n1 n2 check) a p = nbr1 g a p) (hInv : Inv g) :
    (nbr1 (addEdge g n1 n2 check) a p).iter = p ∧
    (nbr1 (addEdge g n1 n2 check) a p).node < nr2 (addEdge g n1 n2 check) ∧
    (nbr1 (addEdge g n1 n2 check) a p).dual <
      degree2 (addEdge g n1 n2 check) (nbr1 (addEdge g n1 n2 check) a p).node ∧
    (nbr2 (addEdge g n1 n2 check) (nbr1 (addEdge g n1 n2 check) a p).node
      (nbr1 (addEdge g n1 n2 check) a p).dual).node = a ∧
    (nbr2 (addEdge g n1 n2 check) (nbr1 (addEdge g n1 n2 check) a p).node
      (nbr1 (addEdge g n1 n2 check) a p).dual).dual = p := by
  have hold := hInv.1 a ha p hp
  rw [hrec]
  have hdual_lt := hold.2.2.1
  have hrecip : nbr2 (addEdge g n1 n2 check) (nbr1 g a p).node (nbr1 g a p).dual
      = nbr2 g (nbr1 g a p).node (nbr1 g a p).dual := by
    by_cases hbn : (nbr1 g a p).node = n2
    · unfold nbr2
      rw [hbn, addEdge_nbl2_self g n1 n2 check hc2 h2]
      have hd2 := hdual_lt
      rw [hbn] at hd2
      exact getD_append_lt _ _ _ hd2 _
    · unfold nbr2
      rw [addEdge_nbl2_other g n1 n2 check hc2 _ (fun e => hbn e.symm)]
  have hdeg2 : degree2 g (nbr1 g a p).node ≤
      degree2 (addEdge g n1 n2 check) (nbr1 g a p).node := by
    by_cases hbn : (nbr1 g a p).node = n2
    · unfold degree2
      rw [hbn, addEdge_nbl2_self g n1 n2 check hc2 h2]
      simp
    · unfold degree2
      rw [addEdge_nbl2_other g n1 n2 check hc2 _ (fun e => hbn e.symm)]
  refine ⟨hold.1, ?_, Nat.lt_of_lt_of_le hdual_lt hdeg2,
    by rw [hrecip]; exact hold.2.2.2.1, by rw [hrecip]; exact hold.2.2.2.2⟩
  rw [nr2_addEdge]
  exact hold.2.1

/-- A type-2 record untouched by an inserting addEdge keeps satisfying
its dual cross-reference clauses in the new graph. -/
theorem addEdge_side2_preserved (g : BG) (n1 n2 : Nat) (check : Bool)
    (hc2 : (check && edgeB g n1 n2) = false) (h1 : n1 < nr1 g)
    (b p : Nat) (hb : b < nr2 g) (hp : p < degree2 g b)
    (hrec : nbr2 (addEdge g n1 n2 check) b p = nbr2 g b p) (hInv : Inv g) :
    (nbr2 (addEdge g n1 n2 check) b p).iter = p ∧
    (nbr2 (addEdge g n1 n2 check) b p).node < nr1 (addEdge g n1 n2 check) ∧
    (nbr2 (addEdge g n1 n2 check) b p).dual <
      degree1 (addEdge g n1 n2 check) (nbr2 (addEdge g n1 n2 check) b p).node ∧
    (nbr1 (addEdge g n1 n2 check) (nbr2 (addEdge g n1 n2 check) b p).node
      (nbr2 (addEdge g n1 n2 check) b p).dual).node = b ∧
    (nbr1 (addEdge g n1 n2 check) (nbr2 (addEdge g n1 n2 check) b p).node
      (nbr2 (addEdge g n1 n2 check) b p).dual).dual = p := by
  have hold := hInv.2 b hb p hp
  rw [hrec]
  have hdual_lt := hold.2.2.1
  have hrecip : nbr1 (addEdge g n1 n2 check) (nbr2 g b p).node (nbr2 g b p).dual
      = nbr1 g (nbr2 g b p).node (nbr2 g b p).dual := by
    by_cases hbn : (nbr2 g b p).node = n1
    · unfold nbr1
      rw [hbn, addEdge_nbl1_self g n1 n2 check hc2 h1]
      have hd1 := hdual_lt
      rw [hbn] at hd1
      exact getD_append_lt _ _ _ hd1 _
    · unfold nbr1
      rw [addEdge_nbl1_other g n1 n2 check hc2 _ (fun e => hbn e.symm)]
  have hdeg1 : degree1 g (nbr2 g b p).node ≤
      degree1 (addEdge g n1 n2 check) (nbr2 g b p).node := by
    by_cases hbn : (nbr2 g b p).node = n1
    · unfold degree1
      rw [hbn, addEdge_nbl1_self g n1 n2 check hc2 h1]
      simp
    · unfold degree1
      rw [addEdge_nbl1_other g n1 n2 check hc2 _ (fun e => hbn e.symm)]
  refine ⟨hold.1, ?_, Nat.lt_of_lt_of_le hdual_lt hdeg1,
    by rw [hrecip]; exact hold.2.2.2.1, by rw [hrecip]; exact hold.2.2.2.2⟩
  rw [nr1_addEdge]
  exact hold.2.1

/-- addEdge preserves the dual cross-reference invariant: a no-op when
the checked scan finds the edge, and otherwise the two appended records
point exactly at each other while nothing else moves. -/
theorem addEdge_preserves_Inv (g : BG) (n1 n2 : Nat) (check : Bool)
    (h1 : n1 < nr1 g) (h2 : n2 < nr2 g) (hInv : Inv g) :
    Inv (addEdge g n1 n2 check) := by
  by_cases hc : (check && edgeB g n1 n2) = true
  · have hid : addEdge g n1 n2 check = g := by
      unfold addEdge
      rw [if_pos hc]
    rw [hid]
    exact hInv
  have hc2 : (check && edgeB g n1 n2) = false := by simpa using hc
  have hs1 := addEdge_nbl1_self g n1 n2 check hc2 h1
  have hs2 := addEdge_nbl2_self g n1 n2 check hc2 h2
  constructor
  · intro a ha p hp
    rw [nr1_addEdge] at ha
    by_cases han : a = n1
    · subst han
      have hdeg : degree1 (addEdge g a n2 check) a = (nbl1 g a).length + 1 := by
        unfold degree1
        rw [hs1]
        simp
      rw [hdeg] at hp
      rcases Nat.lt_succ_iff_lt_or_eq.mp hp with hplt | hpeq
      · exact addEdge_side1_preserved g a n2 check hc2 h2 a p ha hplt
          (by unfold nbr1; rw [hs1]; exact getD_append_lt _ _ _ hplt _) hInv
      · have hrecA : nbr1 (addEdge g a n2 check) a p =
            ⟨(nbl1 g a).length, n2, (nbl2 g n2).length⟩ := by
          unfold nbr1
          rw [hs1, hpeq]
          exact getD_append_len _ _ _
        have hrecB : nbr2 (addEdge g a n2 check) n2 (nbl2 g n2).length =
            ⟨(nbl2 g n2).length, a, (nbl1 g a).length⟩ := by
          unfold nbr2
          rw [hs2]
          exact getD_append_len _ _ _
        rw [hrecA]
        refine ⟨hpeq.symm, ?_, ?_, ?_, ?_⟩
        · rw [nr2_addEdge]
          exact h2
        · show (nbl2 g n2).length < degree2 (addEdge g a n2 check) n2
          unfold degree2
          rw [hs2]
          simp
        · show (nbr2 (addEdge g a n2 check) n2 (nbl2 g n2).length).node = a
          rw [hrecB]
        · show (nbr2 (addEdge g a n2 check) n2 (nbl2 g n2).length).dual = p
          rw [hrecB]
          exact hpeq.symm
    · have hnl : nbl1 (addEdge g n1 n2 check) a = nbl1 g a :=
        addEdge_nbl1_other g n1 n2 check hc2 a (fun e => han e.symm)
      have hp2 : p < degree1 g a := by
        unfold degree1 at hp ⊢
        rw [hnl] at hp
        exact hp
      exact addEdge_side1_preserved g n1 n2 check hc2 h2 a p ha hp2
        (by unfold nbr1; rw [hnl]) hInv
  · intro b hb p hp
    rw [nr2_addEdge] at hb
    by_cases hbn : b = n2
    · subst hbn
      have hdeg : degree2 (addEdge g n1 b check) b = (nbl2 g b).length + 1 := by
        unfold degree2
        rw [hs2]
        simp
      rw [hdeg] at hp
      rcases Nat.lt_succ_iff_lt_or_eq.mp hp with hplt | hpeq
      · exact addEdge_side2_preserved g n1 b check hc2 h1 b p hb hplt
          (by unfold nbr2; rw [hs2]; exact getD_append_lt _ _ _ hplt _) hInv
      · have hrecB : nbr2 (addEdge g n1 b check) b p =
            ⟨(nbl2 g b).length, n1, (nbl1 g n1).length⟩ := by
          unfold nbr2
          rw [hs2, hpeq]
          exact getD_append_len _ _ _
        have hrecA : nbr1 (addEdge g n1 b check) n1 (nbl1 g n1).length =
            ⟨(nbl1 g n1).length, b, (nbl2 g b).length⟩ := by
          unfold nbr1
          rw [hs1]
          exact getD_append_len _ _ _
        rw [hrecB]
        refine ⟨hpeq.symm, ?_, ?_, ?_, ?_⟩
        · rw [nr1_addEdge]
          exact h1
        · show (nbl1 g n1).length < degree1 (addEdge g n1 b check) n1
          unfold degree1
          rw [hs1]
          simp
        · show (nbr1 (addEdge g n1 b check) n1 (nbl1 g n1).length).node = b
          rw [hrecA]
        · show (nbr1 (addEdge g n1 b check) n1 (nbl1 g n1).length).dual = p
          rw [hrecA]
          exact hpeq.symm
    · have hnl : nbl2 (addEdge g n1 n2 check) b = nbl2 g b :=
        addEdge_nbl2_other g n1 n2 check hc2 b (fun e => hbn e.symm)
      have hp2 : p < degree2 g b := by
        unfold degree2 at hp ⊢
        rw [hnl] at hp
        exact hp
      exact addEdge_side2_preserved g n1 n2 check hc2 h1 b p hb hp2
        (by unfold nbr2; rw [hnl]) hInv

/-- A left fold of additions is the starting value plus the mapped sum. -/
theorem foldl_add_map {α : Type} (f : α → Nat) :
    ∀ (l : List α) (a : Nat), l.foldl (fun s x => s + f x) a = a + (l.map f).sum
  | [], a => by simp
  | x :: l, a => by
      simp only [List.foldl_cons, List.map_cons, List.sum_cons]
      rw [foldl_add_map f l (a + f x)]
      omega

/-- Reading the lengths along the index range reads the lengths of the
lists themselves. -/
theorem range_map_getD_len : ∀ ls : List (List Neighbor),
    (List.range ls.length).map (fun i => (ls.getD i []).length) = ls.map List.length
  | [] => rfl
  | l :: ls => by
      rw [List.length_cons, List.range_succ_eq_map]
      simp only [List.map_cons, getD_cons_zero, List.map_map]
      refine congrArg (fun t => l.length :: t) ?_
      exact range_map_getD_len ls

/-- The edge-count loop computes the total type-1 list length. -/
theorem nrEdges_eq_sumLen (g : BG) : nrEdges g = sumLen g.nb1 := by
  show (List.range g.nb1.length).foldl (fun s i1 => s + (g.nb1.getD i1 []).length) 0 =
    (g.nb1.map List.length).sum
  rw [foldl_add_map (fun i => (g.nb1.getD i []).length) (List.range g.nb1.length) 0,
    Nat.zero_add]
  exact congrArg List.sum (range_map_getD_len g.nb1)

/-- Appending one record to an in-range inner list grows the total
length by one. -/
theorem sumLen_set_append :
    ∀ (ls : List (List Neighbor)) (i : Nat), i < ls.length → ∀ r : Neighbor,
      sumLen (ls.set i (ls.getD i [] ++ [r])) = sumLen ls + 1
  | [], i, h, _ => absurd h (by simp)
  | l :: ls, 0, _, r => by
      simp only [List.set_cons_zero, getD_cons_zero, sumLen, List.map_cons, List.sum_cons,
        List.length_append, List.length_singleton]
      omega
  | l :: ls, i + 1, h, r => by
      simp only [List.set_cons_succ, getD_cons_succ, sumLen, List.map_cons, List.sum_cons]
      have hrec := sumLen_set_append ls i (Nat.lt_of_succ_lt_succ h) r
      unfold sumLen at hrec
      omega

/-- An unchecked addEdge within bounds raises the edge count by one. -/
theorem nrEdges_addEdge_unchecked (g : BG) (n1 n2 : Nat) (h1 : n1 < nr1 g) :
    nrEdges (addEdge g n1 n2 false) = nrEdges g + 1 := by
  rw [nrEdges_eq_sumLen, nrEdges_eq_sumLen, addEdge_go_nb1 g n1 n2 false rfl]
  exact sumLen_set_append g.nb1 n1 h1 _

/-- Reads of a replicated empty list always give the empty list. -/
theorem getD_replicate_nil {α : Type} :
    ∀ m a : Nat, (List.replicate m ([] : List α)).getD a [] = []
  | 0, _ => rfl
  | _ + 1, 0 => rfl
  | m + 1, a + 1 => getD_replicate_nil m a

/-- The freshly resized graph satisfies the invariant vacuously. -/
theorem Inv_bgNew (m k : Nat) : Inv (bgNew m k) := by
  constructor
  · intro a _ p hp
    have h0 : degree1 (bgNew m k) a = 0 := congrArg List.length (getD_replicate_nil m a)
    rw [h0] at hp
    exact absurd hp (Nat.not_lt_zero p)
  · intro b _ p hp
    have h0 : degree2 (bgNew m k) b = 0 := congrArg List.length (getD_replicate_nil k b)
    rw [h0] at hp
    exact absurd hp (Nat.not_lt_zero p)

/-- The freshly resized graph has no edges. -/
theorem nrEdges_bgNew (m k : Nat) : nrEdges (bgNew m k) = 0 := by
  rw [nrEdges_eq_sumLen]
  show sumLen (List.replicate m []) = 0
  induction m with
  | zero => rfl
  | succ m ih => simp [sumLen, List.replicate_succ]

/-- The unchecked construction fold keeps the invariant and adds one
edge per input pair. -/
theorem construct_fold_spec :
    ∀ (es : List (Nat × Nat)) (g : BG), Inv g →
      (∀ e ∈ es, e.1 < nr1 g ∧ e.2 < nr2 g) →
      Inv (es.foldl (fun h e => addEdge h e.1 e.2 false) g) ∧
      nrEdges (es.foldl (fun h e => addEdge h e.1 e.2 false) g) = nrEdges g + es.length
  | [], _, hI, _ => ⟨hI, by simp⟩
  | e :: es, g, hI, hb => by
      rw [List.foldl_cons]
      have hbe := hb e (List.mem_cons_self e es)
      have hI2 : Inv (addEdge g e.1 e.2 false) :=
        addEdge_preserves_Inv g e.1 e.2 false hbe.1 hbe.2 hI
      have hb2 : ∀ f ∈ es,
          f.1 < nr1 (addEdge g e.1 e.2 false) ∧ f.2 < nr2 (addEdge g e.1 e.2 false) := by
        intro f hf
        rw [nr1_addEdge, nr2_addEdge]
        exact hb f (List.mem_cons_of_mem e hf)
      obtain ⟨hIf, hnf⟩ := construct_fold_spec es (addEdge g e.1 e.2 false) hI2 hb2
      refine ⟨hIf, ?_⟩
      rw [hnf, nrEdges_addEdge_unchecked g e.1 e.2 hbe.1, List.length_cons]
      omega

/-- C9: unchecked insertion never rejects duplicates: even when the edge
is already present, `addEdge(n1,n2,false)` appends one reciprocal record
pair and the edge count grows by one; and an unchecked (no-DAI_DEBUG)
bulk construction maps an input of valid pairs — duplicates included —
to exactly one record pair each, all still correctly cross-referenced. -/
theorem c9_unchecked_insertion_duplicates :
    (∀ (g : BG) (n1 n2 : Nat), n1 < nr1 g → n2 < nr2 g → edgeB g n1 n2 = true →
      nbl1 (addEdge g n1 n2 false) n1 =
        nbl1 g n1 ++ [⟨(nbl1 g n1).length, n2, (nbl2 g n2).length⟩] ∧
      nbl2 (addEdge g n1 n2 false) n2 =
        nbl2 g n2 ++ [⟨(nbl2 g n2).length, n1, (nbl1 g n1).length⟩] ∧
      nrEdges (addEdge g n1 n2 false) = nrEdges g + 1) ∧
    (∀ (m k : Nat) (es : List (Nat × Nat)), (∀ e ∈ es, e.1 < m ∧ e.2 < k) →
      nrEdges (construct false m k es) = es.length ∧ Inv (construct false m k es)) := by
  constructor
  · intro g n1 n2 h1 h2 _
    exact ⟨addEdge_nbl1_self g n1 n2 false rfl h1,
      addEdge_nbl2_self g n1 n2 false rfl h2,
      nrEdges_addEdge_unchecked g n1 n2 h1⟩
  · intro m k es hb
    have hb2 : ∀ e ∈ es, e.1 < nr1 (bgNew m k) ∧ e.2 < nr2 (bgNew m k) := by
      intro e he
      have hbe := hb e he
      constructor
      · show e.1 < (List.replicate m ([] : List Neighbor)).length
        simpa using hbe.1
      · show e.2 < (List.replicate k ([] : List Neighbor)).length
        simpa using hbe.2
    obtain ⟨hI, hn⟩ := construct_fold_spec es (bgNew m k) (Inv_bgNew m k) hb2
    refine ⟨?_, hI⟩
    show nrEdges (es.foldl (fun h e => addEdge h e.1 e.2 false) (bgNew m k)) = es.length
    rw [hn, nrEdges_bgNew, Nat.zero_add]

/-- C9 witness: the duplicate-tolerant insertion on a graph that already
holds the edge (0,1), and a bulk construction whose input lists edge
(0,0) twice. -/
theorem c9_unchecked_insertion_duplicates_witness :
    (nbl1 (addEdge gBugBase 0 1 false) 0 =
       nbl1 gBugBase 0 ++ [⟨(nbl1 gBugBase 0).length, 1, (nbl2 gBugBase 1).length⟩] ∧
     nbl2 (addEdge gBugBase 0 1 false) 1 =
       nbl2 gBugBase 1 ++ [⟨(nbl2 gBugBase 1).length, 0, (nbl1 gBugBase 0).length⟩] ∧
     nrEdges (addEdge gBugBase 0 1 false) = nrEdges gBugBase + 1) ∧
    (nrEdges (construct false 1 1 [(0, 0), (0, 0)]) = 2 ∧
     Inv (construct false 1 1 [(0, 0), (0, 0)])) :=
  ⟨c9_unchecked_insertion_duplicates.1 gBugBase 0 1 (by decide) (by decide) (by decide),
   c9_unchecked_insertion_duplicates.2 1 1 [(0, 0), (0, 0)] (by decide)⟩

/-- Swapping twice is the identity. -/
theorem swap_swap (g : BG) : swap (swap g) = g := rfl

/-- The counting invariant is symmetric in the two node types. -/
theorem goodCounts_swap (g : BG) (h : GoodCounts g) : GoodCounts (swap g) := by
  refine ⟨?_, h.2.2, h.2.1⟩
  intro a b ha hb
  exact (h.1 b a hb ha).symm

/-- The erase loop never counts other nodes differently. -/
theorem countP_eraseFirstRec_ne (n m : Nat) (hne : m ≠ n) :
    ∀ l : List Neighbor, (eraseFirstRec n l).countP (fun r => r.node == m) =
      l.countP (fun r => r.node == m)
  | [] => rfl
  | r :: rs => by
      by_cases h : r.node = n
      · have hb : (r.node == n) = true := by simp [h]
        have hm : (r.node == m) = false := by
          rw [h]
          exact beq_false_of_ne (Ne.symm hne)
        simp only [eraseFirstRec, hb, if_true, List.countP_cons, hm]
        simp
      · have hb : (r.node == n) = false := by simp [h]
        simp only [eraseFirstRec, hb, Bool.false_eq_true, if_false, List.countP_cons]
        rw [countP_eraseFirstRec_ne n m hne rs]

/-- The erase loop removes exactly one record of the erased node, when
any is present; with Nat subtraction the equation also covers absence. -/
theorem countP_eraseFirstRec_self (n : Nat) :
    ∀ l : List Neighbor, (eraseFirstRec n l).countP (fun r => r.node == n) =
      l.countP (fun r => r.node == n) - 1
  | [] => rfl
  | r :: rs => by
      by_cases h : r.node = n
      · have hb : (r.node == n) = true := by simp [h]
        simp only [eraseFirstRec, hb, if_true, List.countP_cons]
        simp
      · have hb : (r.node == n) = false := by simp [h]
        simp only [eraseFirstRec, hb, Bool.false_eq_true, if_false, List.countP_cons]
        rw [countP_eraseFirstRec_self n rs]
        simp

/-- Survivors of the erase loop come from the original list. -/
theorem mem_of_mem_eraseFirstRec (n : Nat) :
    ∀ l : List Neighbor, ∀ r ∈ eraseFirstRec n l, r ∈ l
  | [], r, h => absurd h (List.not_mem_nil r)
  | s :: rs, r, h => by
      by_cases hb : (s.node == n) = true
      · simp only [eraseFirstRec, hb, if_true] at h
        exact List.mem_cons_of_mem s h
      · have hb2 : (s.node == n) = false := by simpa using hb
        simp only [eraseFirstRec, hb2, Bool.false_eq_true, if_false] at h
        rcases List.mem_cons.mp h with rfl | h2
        · exact List.mem_cons_self _ _
        · exact List.mem_cons_of_mem s (mem_of_mem_eraseFirstRec n rs r h2)

/-- A list of records with in-range nodes has as many records as the
total of its per-node counts. -/
theorem length_eq_sum_countP (m : Nat) :
    ∀ l : List Neighbor, (∀ r ∈ l, r.node < m) →
      l.length = ∑ b ∈ Finset.range m, l.countP (fun r => r.node == b)
  | [], _ => by simp
  | r :: l, h => by
      have hsplit : ∀ b : Nat, (r :: l).countP (fun s => s.node == b) =
          l.countP (fun s => s.node == b) + if r.node = b then 1 else 0 := by
        intro b
        rw [List.countP_cons]
        by_cases hb : r.node = b <;> simp [hb]
      rw [List.length_cons,
        length_eq_sum_countP m l (fun s hs => h s (List.mem_cons_of_mem r hs)),
        Finset.sum_congr rfl (fun b _ => hsplit b), Finset.sum_add_distrib,
        Finset.sum_ite_eq (Finset.range m) r.node (fun _ => 1),
        if_pos (Finset.mem_range.mpr (h r (List.mem_cons_self r l)))]

/-- The total inner length as a sum over positions. -/
theorem sumLen_eq_sum_range :
    ∀ ls : List (List Neighbor),
      sumLen ls = ∑ i ∈ Finset.range ls.length, (ls.getD i []).length
  | [] => by simp [sumLen]
  | l :: ls => by
      rw [show sumLen (l :: ls) = l.length + sumLen ls from by
            simp [sumLen]]
      rw [List.length_cons, Finset.sum_range_succ', sumLen_eq_sum_range ls]
      simp only [getD_cons_succ, getD_cons_zero]
      omega

/-- The counting invariant forces the two sides to store equally many
records in total. -/
theorem sumLen_nb1_eq_nb2 (g : BG) (h : GoodCounts g) : sumLen g.nb1 = sumLen g.nb2 := by
  rw [sumLen_eq_sum_range g.nb1, sumLen_eq_sum_range g.nb2]
  have h1 : ∀ a ∈ Finset.range g.nb1.length, (g.nb1.getD a []).length =
      ∑ b ∈ Finset.range g.nb2.length, (nbl1 g a).countP (fun r => r.node == b) := by
    intro a ha
    exact length_eq_sum_countP g.nb2.length (nbl1 g a)
      (h.2.1 (g.nb1.getD a []) (getD_mem g.nb1 a (Finset.mem_range.mp ha) []))
  have h2 : ∀ b ∈ Finset.range g.nb2.length, (g.nb2.getD b []).length =
      ∑ a ∈ Finset.range g.nb1.length, (nbl2 g b).countP (fun r => r.node == a) := by
    intro b hb
    exact length_eq_sum_countP g.nb1.length (nbl2 g b)
      (h.2.2 (g.nb2.getD b []) (getD_mem g.nb2 b (Finset.mem_range.mp hb) []))
  rw [Finset.sum_congr rfl h1, Finset.sum_congr rfl h2, Finset.sum_comm]
  refine Finset.sum_congr rfl (fun b hb => Finset.sum_congr rfl (fun a ha => ?_))
  exact h.1 a b (Finset.mem_range.mp ha) (Finset.mem_range.mp hb)

/-- Counting over a one-element extension. -/
theorem countP_append_single (l : List Neighbor) (x : Neighbor) (b : Nat) :
    (l ++ [x]).countP (fun r => r.node == b) =
      l.countP (fun r => r.node == b) + if x.node = b then 1 else 0 := by
  rw [List.countP_append, List.countP_cons]
  by_cases h : x.node = b <;> simp [h]

/-- addEdge keeps the counting invariant: either it is the identity, or
it raises the (n1,n2) count on both sides by one. -/
theorem addEdge_goodCounts (g : BG) (n1 n2 : Nat) (check : Bool)
    (h1 : n1 < nr1 g) (h2 : n2 < nr2 g) (hg : GoodCounts g) :
    GoodCounts (addEdge g n1 n2 check) := by
  by_cases hc : (check && edgeB g n1 n2) = true
  · have hid : addEdge g n1 n2 check = g := by
      unfold addEdge
      rw [if_pos hc]
    rw [hid]
    exact hg
  have hc2 : (check && edgeB g n1 n2) = false := by simpa using hc
  refine ⟨?_, ?_, ?_⟩
  · intro a b ha hb
    rw [nr1_addEdge] at ha
    rw [nr2_addEdge] at hb
    by_cases han : a = n1 <;> by_cases hbn : b = n2
    · subst han
      subst hbn
      rw [addEdge_nbl1_self g a b check hc2 h1, addEdge_nbl2_self g a b check hc2 h2,
        countP_append_single, countP_append_single, if_pos rfl, if_pos rfl,
        hg.1 a b h1 h2]
    · subst han
      rw [addEdge_nbl1_self g a n2 check hc2 h1, countP_append_single,
        if_neg (fun e => hbn e.symm),
        addEdge_nbl2_other g a n2 check hc2 b (fun e => hbn e.symm),
        hg.1 a b ha hb, Nat.add_zero]
    · subst hbn
      rw [addEdge_nbl2_self g n1 b check hc2 h2, countP_append_single,
        if_neg (fun e => han e.symm),
        addEdge_nbl1_other g n1 b check hc2 a (fun e => han e.symm),
        hg.1 a b ha hb, Nat.add_zero]
    · rw [addEdge_nbl1_other g n1 n2 check hc2 a (fun e => han e.symm),
        addEdge_nbl2_other g n1 n2 check hc2 b (fun e => hbn e.symm)]
      exact hg.1 a b ha hb
  · intro l hl r hr
    rw [nr2_addEdge]
    rw [addEdge_go_nb1 g n1 n2 check hc2] at hl
    rcases List.mem_or_eq_of_mem_set hl with hl2 | rfl
    · exact hg.2.1 l hl2 r hr
    · rcases List.mem_append.mp hr with hr2 | hr3
      · exact hg.2.1 (nbl1 g n1) (getD_mem g.nb1 n1 h1 []) r hr2
      · rw [List.mem_singleton.mp hr3]
        exact h2
  · intro l hl r hr
    rw [nr1_addEdge]
    rw [addEdge_go_nb2 g n1 n2 check hc2] at hl
    rcases List.mem_or_eq_of_mem_set hl with hl2 | rfl
    · exact hg.2.2 l hl2 r hr
    · rcases List.mem_append.mp hr with hr2 | hr3
      · exact hg.2.2 (nbl2 g n2) (getD_mem g.nb2 n2 h2 []) r hr2
      · rw [List.mem_singleton.mp hr3]
        exact h1

/-- eraseEdge keeps the count of type-1 nodes. -/
theorem nr1_eraseEdge (g : BG) (n1 n2 : Nat) : nr1 (eraseEdge g n1 n2) = nr1 g := by
  simp [eraseEdge, nr1]

/-- eraseEdge keeps the count of type-2 nodes. -/
theorem nr2_eraseEdge (g : BG) (n1 n2 : Nat) : nr2 (eraseEdge g n1 n2) = nr2 g := by
  simp [eraseEdge, nr2]

/-- The erased node's own list after eraseEdge. -/
theorem eraseEdge_nbl1_self (g : BG) (n1 n2 : Nat) (h1 : n1 < nr1 g) :
    nbl1 (eraseEdge g n1 n2) n1 = eraseFirstRec n2 (nbl1 g n1) := by
  show (g.nb1.set n1 _).getD n1 [] = _
  exact getD_set_self _ _ _ h1 _

/-- Other type-1 lists survive eraseEdge unchanged. -/
theorem eraseEdge_nbl1_other (g : BG) (n1 n2 a : Nat) (ha : n1 ≠ a) :
    nbl1 (eraseEdge g n1 n2) a = nbl1 g a := by
  show (g.nb1.set n1 _).getD a [] = _
  exact getD_set_ne _ _ _ _ ha _

/-- The type-2 endpoint's list after eraseEdge. -/
theorem eraseEdge_nbl2_self (g : BG) (n1 n2 : Nat) (h2 : n2 < nr2 g) :
    nbl2 (eraseEdge g n1 n2) n2 = eraseFirstRec n1 (nbl2 g n2) := by
  show (g.nb2.set n2 _).getD n2 [] = _
  exact getD_set_self _ _ _ h2 _

/-- Other type-2 lists survive eraseEdge unchanged. -/
theorem eraseEdge_nbl2_other (g : BG) (n1 n2 b : Nat) (hb : n2 ≠ b) :
    nbl2 (eraseEdge g n1 n2) b = nbl2 g b := by
  show (g.nb2.set n2 _).getD b [] = _
  exact getD_set_ne _ _ _ _ hb _

/-- eraseEdge keeps the counting invariant: it removes one (n1,n2)
record from each side or (when absent, which count symmetry makes mutual)
from neither. -/
theorem eraseEdge_goodCounts (g : BG) (n1 n2 : Nat) (h1 : n1 < nr1 g) (h2 : n2 < nr2 g)
    (hg : GoodCounts g) : GoodCounts (eraseEdge g n1 n2) := by
  refine ⟨?_, ?_, ?_⟩
  · intro a b ha hb
    rw [nr1_eraseEdge] at ha
    rw [nr2_eraseEdge] at hb
    by_cases han : a = n1 <;> by_cases hbn : b = n2
    · subst han
      subst hbn
      rw [eraseEdge_nbl1_self g a b h1, eraseEdge_nbl2_self g a b h2,
        countP_eraseFirstRec_self, countP_eraseFirstRec_self, hg.1 a b h1 h2]
    · subst han
      rw [eraseEdge_nbl1_self g a n2 h1, countP_eraseFirstRec_ne n2 b hbn,
        eraseEdge_nbl2_other g a n2 b (fun e => hbn e.symm), hg.1 a b ha hb]
    · subst hbn
      rw [eraseEdge_nbl1_other g n1 b a (fun e => han e.symm),
        eraseEdge_nbl2_self g n1 b h2, countP_eraseFirstRec_ne n1 a han,
        hg.1 a b ha hb]
    · rw [eraseEdge_nbl1_other g n1 n2 a (fun e => han e.symm),
        eraseEdge_nbl2_other g n1 n2 b (fun e => hbn e.symm)]
      exact hg.1 a b ha hb
  · intro l hl r hr
    rw [nr2_eraseEdge]
    rcases List.mem_or_eq_of_mem_set hl with hl2 | rfl
    · exact hg.2.1 l hl2 r hr
    · exact hg.2.1 (nbl1 g n1) (getD_mem g.nb1 n1 h1 [])
        r (mem_of_mem_eraseFirstRec n2 (nbl1 g n1) r hr)
  · intro l hl r hr
    rw [nr1_eraseEdge]
    rcases List.mem_or_eq_of_mem_set hl with hl2 | rfl
    · exact hg.2.2 l hl2 r hr
    · exact hg.2.2 (nbl2 g n2) (getD_mem g.nb2 n2 h2 [])
        r (mem_of_mem_eraseFirstRec n1 (nbl2 g n2) r hr)

/-- add1 keeps the counting invariant: the new node's list is empty, and
no existing record can name the new id. -/
theorem add1_goodCounts (g : BG) (hg : GoodCounts g) : GoodCounts (add1 g) := by
  refine ⟨?_, ?_, ?_⟩
  · intro a b ha hb
    have ha2 : a < g.nb1.length + 1 := by
      simpa [add1, nr1] using ha
    have hb2 : b < nr2 g := hb
    by_cases haa : a < g.nb1.length
    · have hl : nbl1 (add1 g) a = nbl1 g a := by
        show (g.nb1 ++ [[]]).getD a [] = _
        exact getD_append_lt _ _ _ haa _
      rw [hl]
      exact hg.1 a b haa hb2
    · have haeq : a = g.nb1.length := by omega
      have hl : nbl1 (add1 g) a = [] := by
        show (g.nb1 ++ [[]]).getD a [] = []
        rw [haeq]
        exact getD_append_len _ _ _
      rw [hl]
      have hz : List.countP (fun r => r.node == a) (nbl2 (add1 g) b) = 0 := by
        rw [List.countP_eq_zero]
        intro r hr
        have hlt : r.node < g.nb1.length := hg.2.2 (nbl2 g b) (getD_mem g.nb2 b hb2 []) r hr
        simp only [beq_iff_eq]
        omega
      rw [hz]
      rfl
  · intro l hl r hr
    rcases List.mem_append.mp hl with hl2 | hl3
    · exact hg.2.1 l hl2 r hr
    · rw [List.mem_singleton.mp hl3] at hr
      exact absurd hr (List.not_mem_nil r)
  · intro l hl r hr
    have hlt : r.node < g.nb1.length := hg.2.2 l hl r hr
    show r.node < (g.nb1 ++ [[]]).length
    rw [List.length_append, List.length_singleton]
    omega

/-- add2 is add1 through the type swap. -/
theorem add2_eq_swap (g : BG) : add2 g = swap (add1 (swap g)) := rfl

/-- add2 keeps the counting invariant. -/
theorem add2_goodCounts (g : BG) (hg : GoodCounts g) : GoodCounts (add2 g) := by
  rw [add2_eq_swap]
  exact goodCounts_swap _ (add1_goodCounts (swap g) (goodCounts_swap g hg))

/-- The empty graph satisfies the counting invariant. -/
theorem goodCounts_empty : GoodCounts bgEmpty := by
  refine ⟨?_, ?_, ?_⟩
  · intro a b ha _
    exact absurd ha (Nat.not_lt_zero a)
  · intro l hl
    exact absurd hl (List.not_mem_nil l)
  · intro l hl
    exact absurd hl (List.not_mem_nil l)

/-- The freshly resized graph satisfies the counting invariant. -/
theorem goodCounts_bgNew (m k : Nat) : GoodCounts (bgNew m k) := by
  refine ⟨?_, ?_, ?_⟩
  · intro a b _ _
    rw [show nbl1 (bgNew m k) a = [] from getD_replicate_nil m a,
      show nbl2 (bgNew m k) b = [] from getD_replicate_nil k b]
    rfl
  · intro l hl r hr
    rw [List.eq_of_mem_replicate hl] at hr
    exact absurd hr (List.not_mem_nil r)
  · intro l hl r hr
    rw [List.eq_of_mem_replicate hl] at hr
    exact absurd hr (List.not_mem_nil r)

/-- Bulk construction satisfies the counting invariant in either build
configuration. -/
theorem construct_goodCounts (dbg : Bool) (m k : Nat) (es : List (Nat × Nat))
    (hb : ∀ e ∈ es, e.1 < m ∧ e.2 < k) : GoodCounts (construct dbg m k es) := by
  suffices h : ∀ (fs : List (Nat × Nat)) (g : BG), GoodCounts g →
      (∀ e ∈ fs, e.1 < nr1 g ∧ e.2 < nr2 g) →
      GoodCounts (fs.foldl (fun h e => addEdge h e.1 e.2 dbg) g) by
    apply h es (bgNew m k) (goodCounts_bgNew m k)
    intro e he
    have hbe := hb e he
    constructor
    · show e.1 < (List.replicate m ([] : List Neighbor)).length
      simpa using hbe.1
    · show e.2 < (List.replicate k ([] : List Neighbor)).length
      simpa using hbe.2
  intro fs
  induction fs with
  | nil =>
      intro g hg _
      exact hg
  | cons e fs ih =>
      intro g hg hbb
      rw [List.foldl_cons]
      have hbe := hbb e (List.mem_cons_self e fs)
      exact ih (addEdge g e.1 e.2 dbg) (addEdge_goodCounts g e.1 e.2 dbg hbe.1 hbe.2 hg)
        (fun f hf => by
          rw [nr1_addEdge, nr2_addEdge]
          exact hbb f (List.mem_cons_of_mem e hf))

/-- What the range-add1 loop does to the counts: the new node's list
counts each requested neighbor as often as requested, each target list
gains that many records naming the new node `old1`, every other count is
untouched, and each stored record either names `old1` or comes from the
starting lists. -/
theorem add1rGo_spec (old1 : Nat) :
    ∀ (ns : List Nat) (iter : Nat) (cur : List (List Neighbor)),
      (∀ v ∈ ns, v < cur.length) →
      (add1rGo old1 ns iter cur).2.length = cur.length ∧
      (∀ b : Nat, (add1rGo old1 ns iter cur).1.countP (fun r => r.node == b) =
        ns.countP (fun v => v == b)) ∧
      (∀ b : Nat,
        ((add1rGo old1 ns iter cur).2.getD b []).countP (fun r => r.node == old1) =
          (cur.getD b []).countP (fun r => r.node == old1) +
            ns.countP (fun v => v == b)) ∧
      (∀ b a : Nat, a ≠ old1 →
        ((add1rGo old1 ns iter cur).2.getD b []).countP (fun r => r.node == a) =
          (cur.getD b []).countP (fun r => r.node == a)) ∧
      (∀ l ∈ (add1rGo old1 ns iter cur).2, ∀ r ∈ l,
        r.node = old1 ∨ ∃ l2 ∈ cur, r ∈ l2) ∧
      (∀ r ∈ (add1rGo old1 ns iter cur).1, r.node ∈ ns)
  | [], _, cur, _ => by
      refine ⟨rfl, fun b => rfl, fun b => by simp [add1rGo], fun b a _ => rfl, ?_, ?_⟩
      · intro l hl r hr
        exact Or.inr ⟨l, hl, hr⟩
      · intro r hr
        exact absurd hr (List.not_mem_nil r)
  | it :: rest, iter, cur, hv => by
      have hit : it < cur.length := hv it (List.mem_cons_self it rest)
      have hv2 : ∀ v ∈ rest,
          v < (cur.set it (cur.getD it [] ++
            [⟨(cur.getD it []).length, old1, iter⟩])).length := by
        intro v hvv
        rw [List.length_set]
        exact hv v (List.mem_cons_of_mem it hvv)
      obtain ⟨ihlen, ihnew, ihold1, ihother, ihmem, ihns⟩ :=
        add1rGo_spec old1 rest (iter + 1)
          (cur.set it (cur.getD it [] ++ [⟨(cur.getD it []).length, old1, iter⟩])) hv2
      have hfst : (add1rGo old1 (it :: rest) iter cur).1 =
          ⟨iter, it, (cur.getD it []).length⟩ ::
            (add1rGo old1 rest (iter + 1)
              (cur.set it (cur.getD it [] ++
                [⟨(cur.getD it []).length, old1, iter⟩]))).1 := rfl
      have hsnd : (add1rGo old1 (it :: rest) iter cur).2 =
          (add1rGo old1 rest (iter + 1)
            (cur.set it (cur.getD it [] ++
              [⟨(cur.getD it []).length, old1, iter⟩]))).2 := rfl
      refine ⟨?_, ?_, ?_, ?_, ?_, ?_⟩
      · rw [hsnd, ihlen, List.length_set]
      · intro b
        rw [hfst, List.countP_cons, ihnew b, List.countP_cons]
      · intro b
        rw [hsnd, ihold1 b, List.countP_cons]
        by_cases hbit : b = it
        · subst hbit
          rw [getD_set_self cur b _ hit, countP_append_single, if_pos rfl,
            if_pos (beq_self_eq_true b)]
          omega
        · rw [getD_set_ne cur it b _ (fun e => hbit e.symm),
            if_neg (by simp only [beq_iff_eq]; exact fun e => hbit e.symm)]
          omega
      · intro b a hne
        rw [hsnd, ihother b a hne]
        by_cases hbit : b = it
        · subst hbit
          rw [getD_set_self cur b _ hit, countP_append_single,
            if_neg (fun e => hne e.symm), Nat.add_zero]
        · rw [getD_set_ne cur it b _ (fun e => hbit e.symm)]
      · intro l hl r hr
        rw [hsnd] at hl
        rcases ihmem l hl r hr with hro | ⟨l2, hl2, hrl2⟩
        · exact Or.inl hro
        · rcases List.mem_or_eq_of_mem_set hl2 with hl3 | rfl
          · exact Or.inr ⟨l2, hl3, hrl2⟩
          · rcases List.mem_append.mp hrl2 with hr2 | hr3
            · exact Or.inr ⟨cur.getD it [], getD_mem cur it hit [], hr2⟩
            · rw [List.mem_singleton.mp hr3]
              exact Or.inl rfl
      · intro r hr
        rw [hfst] at hr
        rcases List.mem_cons.mp hr with rfl | hr2
        · exact List.mem_cons_self it rest
        · exact List.mem_cons_of_mem it (ihns r hr2)

/-- The range add1 keeps the counting invariant. -/
theorem add1r_goodCounts (g : BG) (ns : List Nat) (h : ∀ v ∈ ns, v < nr2 g)
    (hg : GoodCounts g) : GoodCounts (add1r g ns) := by
  obtain ⟨hlen, hnew, hold1, hother, hmem, hns⟩ := add1rGo_spec g.nb1.length ns 0 g.nb2 h
  refine ⟨?_, ?_, ?_⟩
  · intro a b ha hb
    have ha2 : a < g.nb1.length + 1 := by
      have : nr1 (add1r g ns) = g.nb1.length + 1 := by
        show (g.nb1 ++ [_]).length = _
        rw [List.length_append, List.length_singleton]
      rw [this] at ha
      exact ha
    have hb2 : b < nr2 g := by
      have : nr2 (add1r g ns) = nr2 g := hlen
      rw [this] at hb
      exact hb
    by_cases haa : a < g.nb1.length
    · have hl : nbl1 (add1r g ns) a = nbl1 g a := by
        show (g.nb1 ++ [_]).getD a [] = _
        exact getD_append_lt _ _ _ haa _
      rw [hl, show nbl2 (add1r g ns) b =
          (add1rGo g.nb1.length ns 0 g.nb2).2.getD b [] from rfl,
        hother b a (Nat.ne_of_lt haa)]
      exact hg.1 a b haa hb2
    · have haeq : a = g.nb1.length := by omega
      have hl : nbl1 (add1r g ns) a = (add1rGo g.nb1.length ns 0 g.nb2).1 := by
        show (g.nb1 ++ [_]).getD a [] = _
        rw [haeq]
        exact getD_append_len _ _ _
      rw [hl, hnew b, show nbl2 (add1r g ns) b =
          (add1rGo g.nb1.length ns 0 g.nb2).2.getD b [] from rfl, haeq, hold1 b]
      have hz : (nbl2 g b).countP (fun r => r.node == g.nb1.length) = 0 := by
        rw [List.countP_eq_zero]
        intro r hr
        have hlt : r.node < g.nb1.length := hg.2.2 (nbl2 g b) (getD_mem g.nb2 b hb2 []) r hr
        simp only [beq_iff_eq]
        omega
      rw [show (g.nb2.getD b []).countP (fun r => r.node == g.nb1.length) = 0 from hz,
        Nat.zero_add]
  · intro l hl r hr
    have hr2 : r.node < nr2 g → r.node < nr2 (add1r g ns) := by
      intro hx
      have : nr2 (add1r g ns) = nr2 g := hlen
      rw [this]
      exact hx
    rcases List.mem_append.mp hl with hl2 | hl3
    · exact hr2 (hg.2.1 l hl2 r hr)
    · rw [List.mem_singleton.mp hl3] at hr
      exact hr2 (h r.node (hns r hr))
  · intro l hl r hr
    show r.node < (g.nb1 ++ [_]).length
    rw [List.length_append, List.length_singleton]
    rcases hmem l hl r hr with hro | ⟨l2, hl2, hrl2⟩
    · omega
    · have hlt : r.node < g.nb1.length := hg.2.2 l2 hl2 r hrl2
      omega

/-- The two range-add loops are the same recursion. -/
theorem add2rGo_eq : ∀ (old : Nat) (ns : List Nat) (iter : Nat)
    (cur : List (List Neighbor)), add2rGo old ns iter cur = add1rGo old ns iter cur
  | _, [], _, _ => rfl
  | old, it :: rest, iter, cur => by
      simp only [add2rGo, add1rGo]
      rw [add2rGo_eq old rest (iter + 1) _]

/-- The range add2 is the range add1 through the type swap. -/
theorem add2r_eq_swap (g : BG) (ns : List Nat) : add2r g ns = swap (add1r (swap g) ns) := by
  unfold add2r add1r swap
  rw [add2rGo_eq]

/-- The range add2 keeps the counting invariant. -/
theorem add2r_goodCounts (g : BG) (ns : List Nat) (h : ∀ v ∈ ns, v < nr1 g)
    (hg : GoodCounts g) : GoodCounts (add2r g ns) := by
  rw [add2r_eq_swap]
  exact goodCounts_swap _ (add1r_goodCounts (swap g) ns h (goodCounts_swap g hg))

/-- Renumbering `iter` fields does not change node counts. -/
theorem countP_reIterFrom (a : Nat) :
    ∀ (k : Nat) (l : List Neighbor),
      (reIterFrom k l).countP (fun r => r.node == a) = l.countP (fun r => r.node == a)
  | _, [] => rfl
  | k, r :: rs => by
      simp only [reIterFrom, List.countP_cons]
      rw [countP_reIterFrom a (k + 1) rs]

/-- Records of a renumbered list carry the node and dual of an original
record. -/
theorem mem_reIterFrom_node :
    ∀ (k : Nat) (l : List Neighbor) (r : Neighbor), r ∈ reIterFrom k l →
      ∃ s ∈ l, r.node = s.node ∧ r.dual = s.dual
  | _, [], r, h => absurd h (List.not_mem_nil r)
  | k, s :: rs, r, h => by
      rcases List.mem_cons.mp h with rfl | h2
      · exact ⟨s, List.mem_cons_self _ _, rfl, rfl⟩
      · obtain ⟨t, ht, he⟩ := mem_reIterFrom_node (k + 1) rs r h2
        exact ⟨t, List.mem_cons_of_mem s ht, he⟩

/-- Counting is pointwise in the predicate. -/
theorem countP_ext {α : Type} (p q : α → Bool) :
    ∀ l : List α, (∀ a ∈ l, p a = q a) → l.countP p = l.countP q
  | [], _ => rfl
  | x :: l, h => by
      rw [List.countP_cons, List.countP_cons, h x (List.mem_cons_self x l),
        countP_ext p q l (fun a ha => h a (List.mem_cons_of_mem x ha))]

/-- Shifting ids down across a removed one matches counting the lifted
id, for a record that does not name the removed node. -/
theorem shift_count_cond (n1 a v : Nat) (hv : v ≠ n1) :
    ((if n1 < v then v - 1 else v) == a) = (v == (if a < n1 then a else a + 1)) := by
  rw [Bool.eq_iff_iff]
  simp only [beq_iff_eq]
  by_cases h1 : n1 < v <;> by_cases h2 : a < n1 <;>
    simp only [h1, h2, if_true, if_false] <;> omega

/-- Pointwise form of the previous fact over the filtered shift map. -/
theorem shift_point (n1 a : Nat) (r : Neighbor) :
    (((if n1 < r.node then (⟨r.iter, r.node - 1, r.dual⟩ : Neighbor) else r).node == a) &&
        !(r.node == n1)) =
      (r.node == (if a < n1 then a else a + 1)) := by
  rw [apply_ite Neighbor.node]
  by_cases hn : r.node = n1
  · rw [hn, show (!((n1 : Nat) == n1)) = false from by simp, Bool.and_false]
    symm
    apply beq_false_of_ne
    by_cases h2 : a < n1 <;> simp only [h2, if_true, if_false] <;> omega
  · rw [show (!(r.node == n1)) = true from by simp [hn], Bool.and_true]
    exact shift_count_cond n1 a r.node hn

/-- Counting node `a` after filtering out the removed node and shifting
larger ids equals counting the lifted id in the original list. -/
theorem countP_filter_shift (n1 a : Nat) (l : List Neighbor) :
    ((l.filter (fun r => !(r.node == n1))).map
        (fun r => if n1 < r.node then (⟨r.iter, r.node - 1, r.dual⟩ : Neighbor) else r)).countP
      (fun r => r.node == a) =
      l.countP (fun r => r.node == (if a < n1 then a else a + 1)) := by
  rw [List.countP_map, List.countP_filter]
  exact countP_ext _ _ l (fun r _ => shift_point n1 a r)

/-- A map that does not touch the `node` field keeps node counts. -/
theorem countP_map_node_eq (f : Neighbor → Neighbor) (hf : ∀ r, (f r).node = r.node)
    (b : Nat) : ∀ l : List Neighbor,
      (l.map f).countP (fun r => r.node == b) = l.countP (fun r => r.node == b)
  | [] => rfl
  | r :: rs => by
      simp only [List.map_cons, List.countP_cons, hf r]
      rw [countP_map_node_eq f hf b rs]

/-- Reading below the erased position. -/
theorem getD_eraseIdx_lt {α : Type} :
    ∀ (l : List α) (i a : Nat), a < i → ∀ d : α, (l.eraseIdx i).getD a d = l.getD a d
  | [], _, _, _, _ => rfl
  | _ :: _, 0, a, h, _ => absurd h (Nat.not_lt_zero a)
  | _ :: _, _ + 1, 0, _, _ => rfl
  | x :: l, i + 1, a + 1, h, d => by
      simp only [List.eraseIdx_cons_succ, getD_cons_succ]
      exact getD_eraseIdx_lt l i a (Nat.lt_of_succ_lt_succ h) d

/-- Reading at or above the erased position skips one slot. -/
theorem getD_eraseIdx_ge {α : Type} :
    ∀ (l : List α) (i a : Nat), i ≤ a → ∀ d : α, (l.eraseIdx i).getD a d = l.getD (a + 1) d
  | [], _, _, _, _ => rfl
  | _ :: _, 0, _, _, _ => rfl
  | _ :: _, i + 1, 0, h, _ => absurd h (by omega)
  | x :: l, i + 1, a + 1, h, d => by
      simp only [List.eraseIdx_cons_succ, getD_cons_succ]
      exact getD_eraseIdx_ge l i a (Nat.le_of_succ_le_succ h) d

/-- Erasing an in-range slot shortens the outer list by one. -/
theorem length_eraseIdx_lt {α : Type} :
    ∀ (l : List α) (i : Nat), i < l.length → (l.eraseIdx i).length = l.length - 1
  | [], _, h => absurd h (by simp)
  | _ :: _, 0, _ => by simp
  | x :: l, i + 1, h => by
      simp only [List.eraseIdx_cons_succ, List.length_cons]
      rw [length_eraseIdx_lt l i (Nat.lt_of_succ_lt_succ h)]
      have : 0 < l.length := by
        have := Nat.lt_of_succ_lt_succ h
        omega
      omega

/-- Reading an in-range slot of a mapped list of lists. -/
theorem getD_map_lists (f : List Neighbor → List Neighbor) :
    ∀ (ls : List (List Neighbor)) (a : Nat), a < ls.length →
      (ls.map f).getD a [] = f (ls.getD a [])
  | [], _, h => absurd h (by simp)
  | _ :: _, 0, _ => rfl
  | l :: ls, a + 1, h => by
      simp only [List.map_cons, getD_cons_succ]
      exact getD_map_lists f ls a (Nat.lt_of_succ_lt_succ h)

/-- The modelled type-1 node removal keeps the counting invariant: new
position `a` counts like old position `a` or `a + 1`, on both sides. -/
theorem erase1_goodCounts (g : BG) (n1 : Nat) (h1 : n1 < nr1 g) (hg : GoodCounts g) :
    GoodCounts (erase1 g n1) := by
  refine ⟨?_, ?_, ?_⟩
  · intro a b ha hb
    have hlen1 : nr1 (erase1 g n1) = nr1 g - 1 := by
      show ((g.nb1.eraseIdx n1).map _).length = g.nb1.length - 1
      rw [List.length_map]
      exact length_eraseIdx_lt g.nb1 n1 h1
    have hlen2 : nr2 (erase1 g n1) = nr2 g := by
      show (g.nb2.map _).length = g.nb2.length
      exact List.length_map _ _
    rw [hlen1] at ha
    rw [hlen2] at hb
    have hmap1 : nbl1 (erase1 g n1) a =
        ((g.nb1.eraseIdx n1).getD a []).map (fun r =>
          ⟨r.iter, r.node,
            ((nbl2 g r.node).take r.dual).countP (fun s => !(s.node == n1))⟩) := by
      show ((g.nb1.eraseIdx n1).map _).getD a [] = _
      apply getD_map_lists
      rw [length_eraseIdx_lt g.nb1 n1 h1]
      exact ha
    have hmap2 : nbl2 (erase1 g n1) b =
        reIterFrom 0 (((nbl2 g b).filter (fun r => !(r.node == n1))).map
          (fun r => if n1 < r.node then (⟨r.iter, r.node - 1, r.dual⟩ : Neighbor) else r)) := by
      show (g.nb2.map _).getD b [] = _
      exact getD_map_lists _ g.nb2 b hb
    rw [hmap1, hmap2,
      countP_map_node_eq (fun r =>
        ⟨r.iter, r.node, ((nbl2 g r.node).take r.dual).countP (fun s => !(s.node == n1))⟩)
        (fun r => rfl) b ((g.nb1.eraseIdx n1).getD a []),
      countP_reIterFrom, countP_filter_shift]
    by_cases haa : a < n1
    · rw [getD_eraseIdx_lt g.nb1 n1 a haa, show (if a < n1 then a else a + 1) = a from
        if_pos haa]
      exact hg.1 a b (by omega) hb
    · rw [getD_eraseIdx_ge g.nb1 n1 a (by omega), show (if a < n1 then a else a + 1) = a + 1
        from if_neg haa]
      exact hg.1 (a + 1) b (by omega) hb
  · intro l hl r hr
    have hlen2 : nr2 (erase1 g n1) = nr2 g := by
      show (g.nb2.map _).length = g.nb2.length
      exact List.length_map _ _
    rw [hlen2]
    obtain ⟨l0, hl0, rfl⟩ := List.mem_map.mp hl
    obtain ⟨s, hs, rfl⟩ := List.mem_map.mp hr
    exact hg.2.1 l0 (List.mem_of_mem_eraseIdx hl0) s hs
  · intro l hl r hr
    show r.node < ((g.nb1.eraseIdx n1).map _).length
    rw [List.length_map, length_eraseIdx_lt g.nb1 n1 h1]
    obtain ⟨l0, hl0, rfl⟩ := List.mem_map.mp hl
    obtain ⟨s, hs, hnode, _⟩ := mem_reIterFrom_node 0 _ r hr
    obtain ⟨t, ht, rfl⟩ := List.mem_map.mp hs
    have htl : t ∈ l0 := (List.mem_filter.mp ht).1
    have htn : ¬(t.node = n1) := by
      have := (List.mem_filter.mp ht).2
      simpa using this
    have hlt : t.node < g.nb1.length := hg.2.2 l0 hl0 t htl
    have h1b : n1 < g.nb1.length := h1
    rw [hnode, apply_ite Neighbor.node]
    by_cases hgt : n1 < t.node
    · rw [if_pos hgt]
      show t.node - 1 < g.nb1.length - 1
      omega
    · rw [if_neg hgt]
      omega

/-- The type-2 node removal is the type-1 removal through the swap. -/
theorem erase2_eq_swap (g : BG) (n2 : Nat) : erase2 g n2 = swap (erase1 (swap g) n2) := rfl

/-- The modelled type-2 node removal keeps the counting invariant. -/
theorem erase2_goodCounts (g : BG) (n2 : Nat) (h2 : n2 < nr2 g) (hg : GoodCounts g) :
    GoodCounts (erase2 g n2) := by
  rw [erase2_eq_swap]
  exact goodCounts_swap _ (erase1_goodCounts (swap g) n2 h2 (goodCounts_swap g hg))

/-- Every reachable state satisfies the counting invariant. -/
theorem reachable_goodCounts : ∀ g : BG, Reachable g → GoodCounts g := by
  intro g h
  induction h with
  | empty => exact goodCounts_empty
  | constructed dbg m k es hb => exact construct_goodCounts dbg m k es hb
  | add1 g _ ih => exact add1_goodCounts g ih
  | add2 g _ ih => exact add2_goodCounts g ih
  | add1r g ns hns _ ih => exact add1r_goodCounts g ns hns ih
  | add2r g ns hns _ ih => exact add2r_goodCounts g ns hns ih
  | addEdge g n1 n2 check h1 h2 _ ih => exact addEdge_goodCounts g n1 n2 check h1 h2 ih
  | eraseEdge g n1 n2 h1 h2 _ ih => exact eraseEdge_goodCounts g n1 n2 h1 h2 ih
  | erase1 g n1 h1 _ ih => exact erase1_goodCounts g n1 h1 ih
  | erase2 g n2 h2 _ ih => exact erase2_goodCounts g n2 h2 ih

/-- C5: on every reachable state, the edge-count loop returns the sum of
the type-1 neighbor-list lengths, and that sum equals the sum of the
type-2 neighbor-list lengths. -/
theorem c5_edge_count_symmetry (g : BG) (h : Reachable g) :
    nrEdges g = sumLen g.nb1 ∧ sumLen g.nb1 = sumLen g.nb2 :=
  ⟨nrEdges_eq_sumLen g, sumLen_nb1_eq_nb2 g (reachable_goodCounts g h)⟩

/-- C5 witness: edge-count symmetry on a state reached by bulk
construction followed by node appends of both types, an edge insertion,
an edge erasure, and a node removal. -/
theorem c5_edge_count_symmetry_witness :
    nrEdges gWit = sumLen gWit.nb1 ∧ sumLen gWit.nb1 = sumLen gWit.nb2 :=
  c5_edge_count_symmetry gWit
    (Reachable.erase1 _ 0 (by decide)
      (Reachable.eraseEdge _ 1 0 (by decide) (by decide)
        (Reachable.addEdge _ 3 2 true (by decide) (by decide)
          (Reachable.add2 _ (Reachable.add1 _
            (Reachable.constructed false 3 2 [(0, 0), (1, 0), (2, 0), (1, 1), (2, 1)]
              (by decide)))))))

end dai
